import Mathlib

/-!
Verification of the release version-propagation tooling of the
rust-marker/marker repository: the region-scoped sed replacement engine
(`replace_in_regions_for_file`, `replace_semver_in_regions`,
`replace_date_in_regions`), the `set-version.sh` release driver and its
gating loop, `get-next-dev-version.sh`, and the snapshot test harness's
trap-based cleanup.

Files are modelled as lists of lines, lines as lists of characters.
The sed substitution commands are modelled by a scanner that implements
POSIX leftmost-longest matching for the concrete patterns appearing in
the scripts (validated against GNU sed).  The sed address-range
machinery `/begin/,/end/` is modelled by the standard two-state line
automaton: a range opens at a line matching the begin address and closes
at the first later line matching the end address; both boundary lines
receive the commands; if the end address never matches, the range
extends to the end of input.
-/

set_option maxRecDepth 20000

namespace Marker

/-- Characters are modelled with their ASCII semantics, matching the C
locale that the release scripts run under. -/
def isDigitC (c : Char) : Bool := '0' ≤ c && c ≤ '9'

def isAlphaC (c : Char) : Bool := ('a' ≤ c && c ≤ 'z') || ('A' ≤ c && c ≤ 'Z')

/-- POSIX `\w`: `[A-Za-z0-9_]`. -/
def isWordC (c : Char) : Bool := isDigitC c || isAlphaC c || c == '_'

/-- The bracket expression `[0-9a-zA-Z.\-]` used for pre-release
suffixes in the library replacer (part_013).  Inside a POSIX bracket
expression a backslash is an ordinary member, so the class contains
digits, ASCII letters, `.`, `\` and `-`. -/
def isClassC (c : Char) : Bool := isDigitC c || isAlphaC c || c == '.' || c == '\\' || c == '-'

/-- The bracket expression `[0-9a-zA-Z.]` used for pre-release suffixes
in set-version.sh's inline replacer. -/
def isClassSVC (c : Char) : Bool := isDigitC c || isAlphaC c || c == '.'

/-- The alternation `(v|\W)` that precedes version tokens. -/
def isPrefC (c : Char) : Bool := c == 'v' || !isWordC c

/-- Convert a string literal to the list-of-characters representation. -/
def str (s : String) : List Char := s.data

/-- Greedy span: the maximal leading run satisfying `p`, and the rest.
Models the maximal-munch behaviour of `[...]+` components in the
leftmost-longest matches of the concrete sed patterns. -/
def spanP (p : Char → Bool) : List Char → List Char × List Char
  | [] => ([], [])
  | c :: tl =>
    if p c then ((c :: (spanP p tl).1, (spanP p tl).2))
    else ([], c :: tl)

/-- `[0-9]+`: at least one digit, maximal munch. -/
def digits1 (l : List Char) : Option (List Char × List Char) :=
  let s := spanP isDigitC l
  if s.1.isEmpty then none else some s

/-- A literal `\.` in the pattern. -/
def expectDot : List Char → Option (List Char)
  | [] => none
  | c :: r => if c = '.' then some r else none

/-- The optional suffix `(-[0-9a-zA-Z.\-]+)?` (library replacer class):
consumed greedily when a `-` followed by at least one class character is
present, otherwise empty. -/
def matchSuffC (l : List Char) : List Char × List Char :=
  match l with
  | [] => ([], [])
  | c :: tl =>
    if c = '-' then
      if (spanP isClassC tl).1.isEmpty then ([], c :: tl)
      else (c :: (spanP isClassC tl).1, (spanP isClassC tl).2)
    else ([], c :: tl)

/-- The optional suffix `(-[0-9a-zA-Z.]+)?` (set-version.sh class). -/
def matchSuffSV (l : List Char) : List Char × List Char :=
  match l with
  | [] => ([], [])
  | c :: tl =>
    if c = '-' then
      if (spanP isClassSVC tl).1.isEmpty then ([], c :: tl)
      else (c :: (spanP isClassSVC tl).1, (spanP isClassSVC tl).2)
    else ([], c :: tl)

/-- Leftmost-longest match of `(v|\W)[0-9]+\.[0-9]+\.[0-9]+(-[0-9a-zA-Z.\-]+)?`
at the head of the input: returns the matched span (including the
captured prefix character) and the remainder. -/
def matchFullP (l : List Char) : Option (List Char × List Char) :=
  match l with
  | [] => none
  | p :: tl =>
    if isPrefC p then
      match digits1 tl with
      | none => none
      | some (d1, r1) =>
        match expectDot r1 with
        | none => none
        | some r2 =>
          match digits1 r2 with
          | none => none
          | some (d2, r3) =>
            match expectDot r3 with
            | none => none
            | some r4 =>
              match digits1 r4 with
              | none => none
              | some (d3, r5) =>
                let s := matchSuffC r5
                some (p :: (d1 ++ '.' :: (d2 ++ '.' :: (d3 ++ s.1))), s.2)
    else none

/-- Match of `(v|\W)[0-9]+\.[0-9]+(-[0-9a-zA-Z.\-]+)?` at the head. -/
def matchMinorP (l : List Char) : Option (List Char × List Char) :=
  match l with
  | [] => none
  | p :: tl =>
    if isPrefC p then
      match digits1 tl with
      | none => none
      | some (d1, r1) =>
        match expectDot r1 with
        | none => none
        | some r2 =>
          match digits1 r2 with
          | none => none
          | some (d2, r3) =>
            let s := matchSuffC r3
            some (p :: (d1 ++ '.' :: (d2 ++ s.1)), s.2)
    else none

/-- Match of `v[0-9]+(-[0-9a-zA-Z.\-]+)?` at the head (the major rule of
the library replacer requires a literal `v`). -/
def matchMajorP (l : List Char) : Option (List Char × List Char) :=
  match l with
  | [] => none
  | p :: tl =>
    if p == 'v' then
      match digits1 tl with
      | none => none
      | some (d, r1) =>
        let s := matchSuffC r1
        some ('v' :: (d ++ s.1), s.2)
    else none

/-- Match of `(v|\W)[0-9]+\.[0-9]+\.[0-9]+(-[0-9a-zA-Z.]+)?`
(set-version.sh's full-version rule). -/
def matchFullSV (l : List Char) : Option (List Char × List Char) :=
  match l with
  | [] => none
  | p :: tl =>
    if isPrefC p then
      match digits1 tl with
      | none => none
      | some (d1, r1) =>
        match expectDot r1 with
        | none => none
        | some r2 =>
          match digits1 r2 with
          | none => none
          | some (d2, r3) =>
            match expectDot r3 with
            | none => none
            | some r4 =>
              match digits1 r4 with
              | none => none
              | some (d3, r5) =>
                let s := matchSuffSV r5
                some (p :: (d1 ++ '.' :: (d2 ++ '.' :: (d3 ++ s.1))), s.2)
    else none

/-- Match of `(v|\W)[0-9]+\.[0-9]+(-[0-9a-zA-Z.]+)?` (set-version.sh). -/
def matchMinorSV (l : List Char) : Option (List Char × List Char) :=
  match l with
  | [] => none
  | p :: tl =>
    if isPrefC p then
      match digits1 tl with
      | none => none
      | some (d1, r1) =>
        match expectDot r1 with
        | none => none
        | some r2 =>
          match digits1 r2 with
          | none => none
          | some (d2, r3) =>
            let s := matchSuffSV r3
            some (p :: (d1 ++ '.' :: (d2 ++ s.1)), s.2)
    else none

/-- Match of `(v|\W)[0-9]+(-[0-9a-zA-Z.]+)?` (set-version.sh's major
rule, which accepts any non-word prefix, not only a literal `v`). -/
def matchMajorSV (l : List Char) : Option (List Char × List Char) :=
  match l with
  | [] => none
  | p :: tl =>
    if isPrefC p then
      match digits1 tl with
      | none => none
      | some (d, r1) =>
        let s := matchSuffSV r1
        some (p :: (d ++ s.1), s.2)
    else none

/-- One `s/pat/repl/g` command: scan left to right; at each position, if
the pattern matches (leftmost-longest), emit the replacement and resume
after the matched span; otherwise copy one character.  Fuel-indexed to
keep the recursion structural; `substGlob` instantiates the fuel with
the input length, which is always sufficient. -/
def substGF (m : List Char → Option (List Char × List Char))
    (rep : List Char → List Char) : Nat → List Char → List Char
  | _, [] => []
  | 0, l => l
  | fuel + 1, c :: tl =>
    match m (c :: tl) with
    | some (t, r) => rep t ++ substGF m rep fuel r
    | none => c :: substGF m rep fuel tl

/-- `s/pat/repl/g` on one line. -/
def substGlob (m : List Char → Option (List Char × List Char))
    (rep : List Char → List Char) (l : List Char) : List Char :=
  substGF m rep l.length l

/-- One `s/pat/repl/` command without the `g` flag: only the first
(leftmost) match on the line is replaced. -/
def substFirst (m : List Char → Option (List Char × List Char))
    (rep : List Char → List Char) : List Char → List Char
  | [] => []
  | c :: tl =>
    match m (c :: tl) with
    | some (t, r) => rep t ++ r
    | none => c :: substFirst m rep tl

/-- `echo "$s" | cut --delimiter . --fields ...`: split on `.`. -/
def splitOnDot : List Char → List (List Char)
  | [] => [[]]
  | c :: tl =>
    if c == '.' then [] :: splitOnDot tl
    else
      match splitOnDot tl with
      | [] => [[c]]
      | f :: rest => (c :: f) :: rest

/-- Rejoin fields with `.` (for `cut --fields 1-2`). -/
def joinDot : List (List Char) → List Char
  | [] => []
  | [f] => f
  | f :: rest => f ++ '.' :: joinDot rest

/-- `cut --delimiter . --fields 1-2` (on delimiter-free input, cut
prints the whole line). -/
def cutF12 (s : List Char) : List Char := joinDot ((splitOnDot s).take 2)

/-- `cut --delimiter . --fields 1`. -/
def cutF1 (s : List Char) : List Char := (splitOnDot s).headD []

/-- The replacement `\1$text`: keep the captured one-character prefix of
the matched span and append the given text. -/
def repKeepHead (text : List Char) (t : List Char) : List Char :=
  t.headD '!' :: text

/-- The three `s///g` commands of `replace_semver_in_regions`
(part_013), applied in order to one line:
`s/(v|\W)X.Y.Z(-suff)?/\1x_y_z/g`, `s/(v|\W)X.Y(-suff)?/\1x_y/g`,
`s/vX(-suff)?/vx/g`, with `x_y` and `x` derived from `x_y_z` by `cut`. -/
def substSemverLine (x_y_z : List Char) (l : List Char) : List Char :=
  let x_y := cutF12 x_y_z
  let x := cutF1 x_y_z
  substGlob matchMajorP (fun _ => 'v' :: x)
    (substGlob matchMinorP (repKeepHead x_y)
      (substGlob matchFullP (repKeepHead x_y_z) l))

/-- The three `s///` commands (first match only) of set-version.sh's
inline `replace` function, applied in order to one line. -/
def substSemverLineSV (new_version : List Char) (l : List Char) : List Char :=
  let x_y := cutF12 new_version
  let x := cutF1 new_version
  substFirst matchMajorSV (repKeepHead x)
    (substFirst matchMinorSV (repKeepHead x_y)
      (substFirst matchFullSV (repKeepHead new_version) l))

/-- A line matches the marker address
`(#|\/\/|<!--) word region( -->)?$` exactly when it ends with the comment
opener, the marker word, and the region name, optionally followed by the
closing ` -->`.  (Region names are used as plain text; all tags in the
repository are metacharacter-free.) -/
def matchesMarker (word : List Char) (region : List Char) (line : List Char) : Bool :=
  [str "#", str "//", str "<!--"].any fun c =>
    List.isSuffixOf (c ++ ' ' :: word ++ ' ' :: region) line ||
    List.isSuffixOf (c ++ ' ' :: word ++ ' ' :: region ++ str " -->") line

def matchesBeginM (region : List Char) (line : List Char) : Bool :=
  matchesMarker (str "region") region line

def matchesEndM (region : List Char) (line : List Char) : Bool :=
  matchesMarker (str "endregion") region line

/-- GNU sed `/begin/,/end/ { cmds }` over the lines of a file.  The
boolean state records whether a range is currently open.  The line that
opens a range receives the commands and is not tested against the end
address; every subsequent line receives the commands, and the first one
matching the end address closes the range.  If no line matches the end
address, the range extends to the end of the file. -/
def sedRangeGo (b e : List Char → Bool) (f : List Char → List Char) :
    Bool → List (List Char) → List (List Char)
  | _, [] => []
  | false, l :: ls =>
    if b l then f l :: sedRangeGo b e f true ls
    else l :: sedRangeGo b e f false ls
  | true, l :: ls => f l :: sedRangeGo b e f (!e l) ls

/-- The per-line flags of the same automaton: `true` exactly on the
lines that receive the commands. -/
def regionFlagsGo (b e : List Char → Bool) : Bool → List (List Char) → List Bool
  | _, [] => []
  | false, l :: ls =>
    if b l then true :: regionFlagsGo b e true ls
    else false :: regionFlagsGo b e false ls
  | true, l :: ls => true :: regionFlagsGo b e (!e l) ls

/-- `replace_in_regions_for_file` (part_013): apply a sed command to the
region of the file delimited by `region replace TAG` /
`endregion replace TAG` marker comments. -/
def replace_in_regions_for_file (sedCmd : List Char → List Char)
    (tag : List Char) (file : List (List Char)) : List (List Char) :=
  sedRangeGo (matchesBeginM (str "replace " ++ tag))
    (matchesEndM (str "replace " ++ tag)) sedCmd false file

/-- The flags of the lines touched by `replace_in_regions_for_file`. -/
def regionFlags (tag : List Char) (file : List (List Char)) : List Bool :=
  regionFlagsGo (matchesBeginM (str "replace " ++ tag))
    (matchesEndM (str "replace " ++ tag)) false file

/-- The validation pattern `^[0-9]+\.[0-9]+\.[0-9]+(-[0-9a-zA-Z.\-]+)?$`
of `replace_semver_in_regions`. -/
def validSemver (s : List Char) : Bool :=
  match digits1 s with
  | none => false
  | some (_, r1) =>
    match expectDot r1 with
    | none => false
    | some r2 =>
      match digits1 r2 with
      | none => false
      | some (_, r3) =>
        match expectDot r3 with
        | none => false
        | some r4 =>
          match digits1 r4 with
          | none => false
          | some (_, r5) => (matchSuffC r5).2.isEmpty

/-- The validation pattern `^[0-9]{4}-[0-9]{2}-[0-9]{2}$` of
`replace_date_in_regions`. -/
def validDate (s : List Char) : Bool :=
  match s with
  | [a, b, c, d, h1, e, f, h2, g, k] =>
    isDigitC a && isDigitC b && isDigitC c && isDigitC d && h1 == '-' &&
    isDigitC e && isDigitC f && h2 == '-' && isDigitC g && isDigitC k
  | _ => false

/-- `replace_semver_in_regions` (part_013): validate the version
argument, aborting with `die` before touching any file if it is not a
semver version; otherwise apply the three substitution commands inside
the tagged regions of every file. -/
def replace_semver_in_regions (tag : List Char) (x_y_z : List Char)
    (files : List (List (List Char))) : Except (List Char) (List (List (List Char))) :=
  if validSemver x_y_z then
    .ok (files.map (replace_in_regions_for_file (substSemverLine x_y_z) tag))
  else
    .error (str "Please enter a valid semver version like 1.2.3. Got: " ++ x_y_z)

/-- Leftmost match of `[0-9]{4}-[0-9]{2}-[0-9]{2}` at the head of the
input (used by the date replacer). -/
def matchDateP (l : List Char) : Option (List Char × List Char) :=
  match l with
  | a :: b :: c :: d :: h1 :: e :: f :: h2 :: g :: k :: rest =>
    if isDigitC a && isDigitC b && isDigitC c && isDigitC d && h1 == '-' &&
        isDigitC e && isDigitC f && h2 == '-' && isDigitC g && isDigitC k then
      some ([a, b, c, d, h1, e, f, h2, g, k], rest)
    else none
  | _ => none

/-- `replace_date_in_regions` (part_013): validate the date argument,
aborting with `die` before touching any file if it is not of the form
`YYYY-MM-DD`; otherwise substitute all date tokens inside the tagged
regions of every file. -/
def replace_date_in_regions (tag : List Char) (date : List Char)
    (files : List (List (List Char))) : Except (List Char) (List (List (List Char))) :=
  if validDate date then
    .ok (files.map (replace_in_regions_for_file
      (substGlob matchDateP (fun _ => date)) tag))
  else
    .error (str "Please enter a valid date like 2022-01-01. Got: " ++ date)

/-- The sed program of set-version.sh's inline `replace` function for
one file: the region is `replace-version TAG`. -/
def sv_replace (new_version : List Char) (tag : List Char)
    (file : List (List Char)) : List (List Char) :=
  sedRangeGo (matchesBeginM (str "replace-version " ++ tag))
    (matchesEndM (str "replace-version " ++ tag))
    (substSemverLineSV new_version) false file

/-- Whether `[[ "$new_version" != *-dev ]]` fails, i.e. the version ends
with `-dev`. -/
def endsWithDev (v : List Char) : Bool := List.isSuffixOf (str "-dev") v

/-- Whether `[[ "$new_version" != *-* ]]` fails, i.e. the version
contains a `-` anywhere. -/
def hasDash (v : List Char) : Bool := v.contains '-'

/-- The region tags set-version.sh applies for a given new version,
mirroring the guards of its per-file loop: `dev` always, `unstable`
unless the version ends with `-dev`, `stable` unless it contains a
`-`. -/
def regionsToApply (v : List Char) : List (List Char) :=
  [str "dev"] ++
  (if endsWithDev v then [] else [str "unstable"]) ++
  (if hasDash v then [] else [str "stable"])

/-- The body of set-version.sh's per-file loop, written exactly as the
three guarded `replace` calls appear in the script. -/
def setVersionProcessFile (v : List Char) (file : List (List Char)) :
    List (List Char) :=
  let f1 := sv_replace v (str "dev") file
  let f2 := if endsWithDev v then f1 else sv_replace v (str "unstable") f1
  if hasDash v then f2 else sv_replace v (str "stable") f2

/-- set-version.sh's argument loop: `--commit MSG` is consumed in
pairs; any other argument hits `die "Unknown option: $1"`. -/
def svParseArgs (commit : List Char) : List (List Char) → Except (List Char) (List Char)
  | [] => .ok commit
  | a :: rest =>
    if a = str "--commit" then
      match rest with
      | m :: rest2 => svParseArgs m rest2
      | [] => .error (str "unbound variable")
    else .error (str "Unknown option: " ++ a)

/-- set-version.sh: parse the remaining arguments first (the loop runs
before any file is touched), then run the gated per-file replacement
over all files. -/
def setVersionMain (new_version : List Char) (args : List (List Char))
    (files : List (List (List Char))) : Except (List Char) (List (List (List Char))) :=
  match svParseArgs [] args with
  | .error e => .error e
  | .ok _commit => .ok (files.map (setVersionProcessFile new_version))

/-- The value of an all-digit field in bash arithmetic: a leading `0`
on a multi-digit numeral selects octal (digits `8`/`9` are then an
error); otherwise decimal.  A non-digit field is modelled as an
arithmetic error.  The empty field evaluates to `0`. -/
def bashArithVal (s : List Char) : Option Nat :=
  if s.all isDigitC then
    match s with
    | '0' :: c :: tl =>
      if (c :: tl).all (fun d => d < '8') then
        some (((c :: tl).foldl (fun acc d => acc * 8 + (d.toNat - 48)) 0))
      else none
    | _ => some (s.foldl (fun acc d => acc * 10 + (d.toNat - 48)) 0)
  else none

/-- get-next-dev-version.sh under `set -euo pipefail`:
`IFS='.' read -r major minor patch` splits the argument on `.`;
`((minor++))` evaluates the post-increment, whose value is the OLD value
of `minor` — when that value is `0` the arithmetic command has exit
status 1 and `set -e` aborts the script before anything is printed;
otherwise `echo "$major.$minor.0-dev"` prints the bumped version. -/
def get_next_dev_version (version : List Char) : Except Unit (List Char) :=
  let fields := splitOnDot version
  let major := fields.headD []
  let minor := (fields.drop 1).headD []
  match bashArithVal minor with
  | none => .error ()
  | some m =>
    if m = 0 then .error ()
    else .ok (major ++ '.' :: Nat.toDigits 10 (m + 1) ++ str ".0-dev")

/-- Events that can interrupt the snapshot test harness between two
commands: a failing command (`ERR` + `set -e`), or an incoming
`SIGINT`/`SIGTERM`. -/
inductive HEvent
  | cmdFail
  | sigint
  | sigterm
deriving DecidableEq

/-- The commands of the harness that matter for resource tracking:
`trap cleanup SIGINT SIGTERM ERR EXIT`, `temp_dir=$(mktemp -d)`, and
the remaining work (rsync, pushd, git add, set-version.sh, diff), which
does not touch the trap table or the temporary directory. -/
inductive HCmd
  | trapRegister
  | makeTempDir
  | work
deriving DecidableEq

/-- The command sequence of the snapshot test harness (part_019): the
trap is registered first, the temporary directory is created next, and
all fallible work follows. -/
def harnessScript : List HCmd :=
  [HCmd.trapRegister, HCmd.makeTempDir, HCmd.work, HCmd.work, HCmd.work, HCmd.work]

structure HState where
  trapsSet : Bool
  tempCreated : Bool
  tempExists : Bool
  cleanupRuns : Nat
deriving DecidableEq

def hInit : HState := ⟨false, false, false, 0⟩

/-- The body of `cleanup`: `trap - SIGINT SIGTERM ERR EXIT` (so that the
handler can never fire a second time), then `rm -rf "$temp_dir"`. -/
def runCleanup (s : HState) : HState :=
  { s with trapsSet := false, tempExists := false, cleanupRuns := s.cleanupRuns + 1 }

def execHCmd (s : HState) : HCmd → HState
  | .trapRegister => { s with trapsSet := true }
  | .makeTempDir => { s with tempCreated := true, tempExists := true }
  | .work => s

/-- Fire a trapped condition: the handler runs only while the traps are
registered. -/
def fireTrap (s : HState) : HState :=
  if s.trapsSet then runCleanup s else s

/-- A trapped signal arriving while `temp_dir` is still unset: the
handler clears the traps and then `rm -rf "$temp_dir"` aborts the shell
under `set -u` (unbound variable), so the script does not resume.  With
`temp_dir` set, the handler completes and bash resumes the script after
the interrupted command. -/
def signalPath (i : Nat) (s : HState) : HState :=
  if s.trapsSet then
    if s.tempCreated then
      fireTrap ((harnessScript.drop i).foldl execHCmd (runCleanup s))
    else runCleanup s
  else s

/-- One complete run of the harness.  `none`: no interruption — all
commands run, then the `EXIT` trap fires.  `some (i, e)`: event `e`
arrives after the first `i` commands.  A failing command fires the `ERR`
trap and `set -e` then exits the shell, firing the (by then cleared)
`EXIT` trap.  A trapped signal runs the handler and bash resumes the
script, which runs to completion and fires the (cleared) `EXIT` trap; an
untrapped signal kills the process immediately. -/
def runHarness (intr : Option (Nat × HEvent)) : HState :=
  match intr with
  | none => fireTrap (harnessScript.foldl execHCmd hInit)
  | some (i, e) =>
    let s := (harnessScript.take i).foldl execHCmd hInit
    match e with
    | .cmdFail => fireTrap (fireTrap s)
    | .sigint => signalPath i s
    | .sigterm => signalPath i s

/-- `l'` is obtained from `l` by replacing some non-overlapping
token substrings (members of `tok`) with their images under `rep`,
leaving every byte outside the replaced spans unchanged. -/
inductive SubstSpans (tok : List Char → Prop) (rep : List Char → List Char) :
    List Char → List Char → Prop
  | nil : SubstSpans tok rep [] []
  | keep (c : Char) {l l' : List Char} :
      SubstSpans tok rep l l' → SubstSpans tok rep (c :: l) (c :: l')
  | subst {t : List Char} {l l' : List Char} (ht : tok t) :
      SubstSpans tok rep l l' → SubstSpans tok rep (t ++ l) (rep t ++ l')

/-- The tokens of a matcher: the spans it can match in full in some
right context. -/
def TokOf (m : List Char → Option (List Char × List Char)) (t : List Char) : Prop :=
  ∃ r, m (t ++ r) = some (t, r)

/-- The three substitution passes of `replace_semver_in_regions` relate
a line to its rewrite through two intermediate lines; each pass only
replaces full matches of its own pattern and copies everything else
byte for byte. -/
def SemverChain (x_y_z l l2 : List Char) : Prop :=
  ∃ m1 m2,
    SubstSpans (TokOf matchFullP) (repKeepHead x_y_z) l m1 ∧
    SubstSpans (TokOf matchMinorP) (repKeepHead (cutF12 x_y_z)) m1 m2 ∧
    SubstSpans (TokOf matchMajorP) (fun _ => 'v' :: cutF1 x_y_z) m2 l2

/-- Structured lines for the idempotence analysis: a line is a sequence
of version-free context spans and version tokens.  A `fullT`/`minorT`
token carries its one-character prefix (`v` or a non-word character),
its digit groups, and an optional pre-release suffix; a `majorT` token
is a literal `v` followed by digits and an optional suffix. -/
inductive VSeg
  | ctx (s : List Char)
  | fullT (p : Char) (a b c : List Char) (s : List Char)
  | minorT (p : Char) (a b : List Char) (s : List Char)
  | majorT (a : List Char) (s : List Char)
deriving DecidableEq

def renderSeg : VSeg → List Char
  | .ctx s => s
  | .fullT p a b c s => p :: (a ++ '.' :: (b ++ '.' :: (c ++ s)))
  | .minorT p a b s => p :: (a ++ '.' :: (b ++ s))
  | .majorT a s => 'v' :: (a ++ s)

def renderSegs (xs : List VSeg) : List Char := (xs.map renderSeg).flatten

/-- A non-empty group of digits. -/
def digitRunB (d : List Char) : Bool := !d.isEmpty && d.all isDigitC

/-- A well-separated pre-release suffix: absent, or a `-` followed by a
non-empty run of suffix-class characters none of which is a digit. -/
def suffixOkB : List Char → Bool
  | [] => true
  | c :: w => c == '-' && !w.isEmpty && w.all fun d => isClassC d && !isDigitC d

def segOkB : VSeg → Bool
  | .ctx s => s.all fun c => !isDigitC c
  | .fullT p a b c s => isPrefC p && digitRunB a && digitRunB b && digitRunB c && suffixOkB s
  | .minorT p a b s => isPrefC p && digitRunB a && digitRunB b && suffixOkB s
  | .majorT a s => digitRunB a && suffixOkB s

/-- The character immediately following a token must not be able to
extend it: after a suffix-less token (which ends in a digit) the next
character may not be a digit, `.` or `-`; after a suffixed token it may
not be a suffix-class character. -/
def boundaryOkB (sfx : List Char) : Option Char → Bool
  | none => true
  | some c =>
    !isDigitC c &&
    (match sfx with
     | [] => !(c == '.') && !(c == '-')
     | _ :: _ => !isClassC c)

def segBoundary : VSeg → Option Char → Bool
  | .ctx _, _ => true
  | .fullT _ _ _ _ s, nx => boundaryOkB s nx
  | .minorT _ _ _ s, nx => boundaryOkB s nx
  | .majorT _ s, nx => boundaryOkB s nx

/-- Well-separated segment lists: every segment is well-formed and every
token is followed by a character that cannot extend it. -/
def wfSegsB : List VSeg → Bool
  | [] => true
  | x :: xs => segOkB x && segBoundary x (renderSegs xs).head? && wfSegsB xs

/-- Effect of the full-version pass on a segment. -/
def canon1 (X Y Z : List Char) : VSeg → VSeg
  | .fullT p _ _ _ _ => .fullT p X Y Z []
  | s => s

/-- Effect of the minor-version pass on a segment. -/
def canon2 (X Y : List Char) : VSeg → VSeg
  | .minorT p _ _ _ => .minorT p X Y []
  | s => s

/-- Effect of the major-version pass on a segment. -/
def canon3 (X : List Char) : VSeg → VSeg
  | .majorT _ _ => .majorT X []
  | s => s

/-- Combined effect of the three passes on a segment. -/
def canonSeg (X Y Z : List Char) : VSeg → VSeg
  | .ctx s => .ctx s
  | .fullT p _ _ _ _ => .fullT p X Y Z []
  | .minorT p _ _ _ => .minorT p X Y []
  | .majorT _ _ => .majorT X []

/-- All full-version tokens of the list are already in canonical
form. -/
def fullsCanon (X Y Z : List Char) (xs : List VSeg) : Prop :=
  ∀ p a b c s, VSeg.fullT p a b c s ∈ xs → a = X ∧ b = Y ∧ c = Z ∧ s = []

/-- All minor-version tokens of the list are already in canonical
form. -/
def minorsCanon (X Y : List Char) (xs : List VSeg) : Prop :=
  ∀ p a b s, VSeg.minorT p a b s ∈ xs → a = X ∧ b = Y ∧ s = []

/-! ### Basic lemmas about the scanner primitives -/

theorem spanP_nil (p : Char → Bool) : spanP p [] = ([], []) := rfl

theorem spanP_cons_pos {p : Char → Bool} {c : Char} (tl : List Char) (hc : p c = true) :
    spanP p (c :: tl) = (c :: (spanP p tl).1, (spanP p tl).2) := by
  simp [spanP, hc]

theorem spanP_cons_neg {p : Char → Bool} {c : Char} (tl : List Char) (hc : p c = false) :
    spanP p (c :: tl) = ([], c :: tl) := by
  simp [spanP, hc]

theorem spanP_split (p : Char → Bool) : ∀ l a b, spanP p l = (a, b) → l = a ++ b := by
  intro l
  induction l with
  | nil =>
    intro a b h
    rw [spanP_nil] at h
    injection h with h1 h2
    subst h1; subst h2
    rfl
  | cons c tl ih =>
    intro a b h
    by_cases hc : p c
    · rw [spanP_cons_pos tl hc] at h
      injection h with h1 h2
      subst h1; subst h2
      have := ih (spanP p tl).1 (spanP p tl).2 rfl
      simpa using this
    · rw [spanP_cons_neg tl (by simpa using hc)] at h
      injection h with h1 h2
      subst h1; subst h2
      rfl

theorem digits1_split {l a b : List Char} (h : digits1 l = some (a, b)) :
    l = a ++ b ∧ a ≠ [] := by
  unfold digits1 at h
  by_cases he : (spanP isDigitC l).1.isEmpty
  · simp [he] at h
  · simp [he] at h
    constructor
    · exact spanP_split isDigitC l a b h
    · intro hnil
      rw [h, hnil] at he
      simp at he

theorem expectDot_cons (c : Char) (tl : List Char) :
    expectDot (c :: tl) = if c = '.' then some tl else none := rfl

theorem expectDot_split {l r : List Char} (h : expectDot l = some r) : l = '.' :: r := by
  cases l with
  | nil => simp [expectDot] at h
  | cons c tl =>
    rw [expectDot_cons] at h
    by_cases hc : c = '.'
    · rw [if_pos hc] at h
      simp at h
      rw [hc, h]
    · rw [if_neg hc] at h
      simp at h

theorem matchSuffC_cons (c : Char) (tl : List Char) :
    matchSuffC (c :: tl) =
      if c = '-' then
        if (spanP isClassC tl).1.isEmpty then ([], c :: tl)
        else (c :: (spanP isClassC tl).1, (spanP isClassC tl).2)
      else ([], c :: tl) := rfl

theorem matchSuffC_split (l : List Char) : l = (matchSuffC l).1 ++ (matchSuffC l).2 := by
  cases l with
  | nil => rfl
  | cons c tl =>
    rw [matchSuffC_cons]
    have hsp := spanP_split isClassC tl (spanP isClassC tl).1 (spanP isClassC tl).2 rfl
    by_cases hc : c = '-'
    · rw [if_pos hc]
      by_cases he : (spanP isClassC tl).1.isEmpty
      · rw [if_pos he]
        rfl
      · rw [if_neg he]
        simpa using hsp
    · rw [if_neg hc]
      rfl

theorem matchFullP_split {l t r : List Char} (h : matchFullP l = some (t, r)) :
    l = t ++ r ∧ t ≠ [] := by
  unfold matchFullP at h
  split at h
  · simp at h
  · rename_i p tl
    split at h <;> try simp at h
    split at h <;> try simp at h
    rename_i d1 r1 h1
    split at h <;> try simp at h
    rename_i r2 h2
    split at h <;> try simp at h
    rename_i d2 r3 h3
    split at h <;> try simp at h
    rename_i r4 h4
    split at h <;> try simp at h
    rename_i d3 r5 h5
    have e6 := matchSuffC_split r5
    obtain ⟨ht, hr⟩ := h
    subst ht; subst hr
    refine ⟨?_, by simp⟩
    have e1 := (digits1_split h1).1
    have e2 := expectDot_split h2
    have e3 := (digits1_split h3).1
    have e4 := expectDot_split h4
    have e5 := (digits1_split h5).1
    rw [e1, e2, e3, e4, e5]
    simp only [List.cons_append, List.append_assoc]
    rw [← e6]

theorem matchMinorP_split {l t r : List Char} (h : matchMinorP l = some (t, r)) :
    l = t ++ r ∧ t ≠ [] := by
  unfold matchMinorP at h
  split at h
  · simp at h
  · rename_i p tl
    split at h <;> try simp at h
    split at h <;> try simp at h
    rename_i d1 r1 h1
    split at h <;> try simp at h
    rename_i r2 h2
    split at h <;> try simp at h
    rename_i d2 r3 h3
    have e6 := matchSuffC_split r3
    obtain ⟨ht, hr⟩ := h
    subst ht; subst hr
    refine ⟨?_, by simp⟩
    have e1 := (digits1_split h1).1
    have e2 := expectDot_split h2
    have e3 := (digits1_split h3).1
    rw [e1, e2, e3]
    simp only [List.cons_append, List.append_assoc]
    rw [← e6]

theorem matchMajorP_split {l t r : List Char} (h : matchMajorP l = some (t, r)) :
    l = t ++ r ∧ t ≠ [] := by
  unfold matchMajorP at h
  split at h
  · simp at h
  · rename_i p tl
    by_cases hpv : (p == 'v') = true
    · rw [if_pos hpv] at h
      split at h <;> try simp at h
      rename_i d r1 h1
      have e6 := matchSuffC_split r1
      obtain ⟨ht, hr⟩ := h
      subst ht; subst hr
      refine ⟨?_, by simp⟩
      have hp : p = 'v' := by simpa using hpv
      subst hp
      have e1 := (digits1_split h1).1
      rw [e1]
      simp only [List.cons_append, List.append_assoc]
      rw [← e6]
    · rw [if_neg hpv] at h
      simp at h

/-! ### The substitution scanner -/

theorem substGF_nil (m : List Char → Option (List Char × List Char))
    (rep : List Char → List Char) (fuel : Nat) : substGF m rep fuel [] = [] := by
  cases fuel <;> rfl

theorem substGF_succ_cons (m : List Char → Option (List Char × List Char))
    (rep : List Char → List Char) (fuel : Nat) (c : Char) (tl : List Char) :
    substGF m rep (fuel + 1) (c :: tl) =
      match m (c :: tl) with
      | some (t, r) => rep t ++ substGF m rep fuel r
      | none => c :: substGF m rep fuel tl := rfl

theorem substGlob_nil (m : List Char → Option (List Char × List Char))
    (rep : List Char → List Char) : substGlob m rep [] = [] := rfl

theorem substGF_fuel {m : List Char → Option (List Char × List Char)}
    {rep : List Char → List Char}
    (hm : ∀ {l t r : List Char}, m l = some (t, r) → l = t ++ r ∧ t ≠ []) :
    ∀ f1 f2 l, l.length ≤ f1 → l.length ≤ f2 →
      substGF m rep f1 l = substGF m rep f2 l := by
  intro f1
  induction f1 with
  | zero =>
    intro f2 l h1 _
    have hl : l = [] := by
      cases l with
      | nil => rfl
      | cons c tl => simp at h1
    subst hl
    simp [substGF_nil]
  | succ f1 ih =>
    intro f2 l h1 h2
    match l with
    | [] => simp [substGF_nil]
    | c :: tl =>
      match f2 with
      | 0 => simp at h2
      | f2 + 1 =>
        rw [substGF_succ_cons, substGF_succ_cons]
        cases hmc : m (c :: tl) with
        | none =>
          dsimp only
          have htl : tl.length ≤ f1 := by simp at h1; omega
          have htl2 : tl.length ≤ f2 := by simp at h2; omega
          rw [ih f2 tl htl htl2]
        | some tr =>
          obtain ⟨t, r⟩ := tr
          dsimp only
          obtain ⟨hsp, hne⟩ := hm hmc
          have hlen : r.length + 1 ≤ (c :: tl).length := by
            have := congrArg List.length hsp
            simp at this
            have : 1 ≤ t.length := by
              cases t with
              | nil => exact absurd rfl hne
              | cons _ _ => simp
            simp [hsp]
            omega
          have hr1 : r.length ≤ f1 := by simp at h1 hlen ⊢; omega
          have hr2 : r.length ≤ f2 := by simp at h2 hlen ⊢; omega
          rw [ih f2 r hr1 hr2]

theorem substGlob_cons_none {m : List Char → Option (List Char × List Char)}
    {rep : List Char → List Char} {c : Char} {tl : List Char}
    (h : m (c :: tl) = none) :
    substGlob m rep (c :: tl) = c :: substGlob m rep tl := by
  unfold substGlob
  have : (c :: tl).length = tl.length + 1 := by simp
  rw [this, substGF_succ_cons, h]

theorem substGlob_cons_match {m : List Char → Option (List Char × List Char)}
    {rep : List Char → List Char}
    (hm : ∀ {l t r : List Char}, m l = some (t, r) → l = t ++ r ∧ t ≠ [])
    {c : Char} {tl t r : List Char} (h : m (c :: tl) = some (t, r)) :
    substGlob m rep (c :: tl) = rep t ++ substGlob m rep r := by
  unfold substGlob
  have hc : (c :: tl).length = tl.length + 1 := by simp
  rw [hc, substGF_succ_cons, h]
  dsimp only
  obtain ⟨hsp, hne⟩ := hm h
  have hrt : r.length ≤ tl.length := by
    have := congrArg List.length hsp
    simp at this
    have ht1 : 1 ≤ t.length := by
      cases t with
      | nil => exact absurd rfl hne
      | cons _ _ => simp
    omega
  rw [substGF_fuel hm tl.length r.length r hrt le_rfl]

theorem substSpans_refl (tok : List Char → Prop) (rep : List Char → List Char) :
    ∀ l, SubstSpans tok rep l l := by
  intro l
  induction l with
  | nil => exact .nil
  | cons c tl ih => exact .keep c ih

theorem substGlob_spans_aux {m : List Char → Option (List Char × List Char)}
    {rep : List Char → List Char}
    (hm : ∀ {l t r : List Char}, m l = some (t, r) → l = t ++ r ∧ t ≠ []) :
    ∀ n l, l.length ≤ n → SubstSpans (TokOf m) rep l (substGlob m rep l) := by
  intro n
  induction n with
  | zero =>
    intro l h
    have hl : l = [] := by
      cases l with
      | nil => rfl
      | cons c tl => simp at h
    subst hl
    rw [substGlob_nil]
    exact .nil
  | succ n ih =>
    intro l h
    match l with
    | [] =>
      rw [substGlob_nil]
      exact .nil
    | c :: tl =>
      cases hmc : m (c :: tl) with
      | none =>
        rw [substGlob_cons_none hmc]
        exact .keep c (ih tl (by simp at h ⊢; omega))
      | some tr =>
        obtain ⟨t, r⟩ := tr
        obtain ⟨hsp, hne⟩ := hm hmc
        rw [substGlob_cons_match hm hmc, hsp]
        have hrn : r.length ≤ n := by
          have := congrArg List.length hsp
          simp at this
          have ht1 : 1 ≤ t.length := by
            cases t with
            | nil => exact absurd rfl hne
            | cons _ _ => simp
          simp at h
          omega
        exact .subst ⟨r, hsp ▸ hmc⟩ (ih r hrn)

/-- Every `s///g` pass relates a line to its output by replacing
complete pattern matches only. -/
theorem substGlob_spans {m : List Char → Option (List Char × List Char)}
    {rep : List Char → List Char}
    (hm : ∀ {l t r : List Char}, m l = some (t, r) → l = t ++ r ∧ t ≠ [])
    (l : List Char) : SubstSpans (TokOf m) rep l (substGlob m rep l) :=
  substGlob_spans_aux hm l.length l le_rfl

/-! ### The sed range automaton -/

theorem sedRangeGo_length (b e : List Char → Bool) (f : List Char → List Char) :
    ∀ st ls, (sedRangeGo b e f st ls).length = ls.length := by
  intro st ls
  induction ls generalizing st with
  | nil => cases st <;> rfl
  | cons l tl ih =>
    cases st with
    | false =>
      by_cases hb : b l
      · simp [sedRangeGo, hb, ih]
      · simp [sedRangeGo, hb, ih]
    | true => simp [sedRangeGo, ih]

theorem sedRangeGo_get_false (b e : List Char → Bool) (f : List Char → List Char) :
    ∀ (ls : List (List Char)) (st : Bool) (i : Nat),
      (regionFlagsGo b e st ls)[i]? = some false →
      (sedRangeGo b e f st ls)[i]? = ls[i]? := by
  intro ls
  induction ls with
  | nil => intro st i h; simp [regionFlagsGo] at h
  | cons l tl ih =>
    intro st i h
    cases st with
    | false =>
      by_cases hb : b l
      · simp [regionFlagsGo, hb] at h
        match i with
        | 0 => simp at h
        | i + 1 =>
          simp at h
          simp [sedRangeGo, hb]
          exact ih true i h
      · simp [regionFlagsGo, hb] at h
        match i with
        | 0 => simp [sedRangeGo, hb]
        | i + 1 =>
          simp at h
          simp [sedRangeGo, hb]
          exact ih false i h
    | true =>
      simp [regionFlagsGo] at h
      match i with
      | 0 => simp at h
      | i + 1 =>
        simp at h
        simp [sedRangeGo]
        exact ih _ i h

theorem sedRangeGo_get_true (b e : List Char → Bool) (f : List Char → List Char) :
    ∀ (ls : List (List Char)) (st : Bool) (i : Nat),
      (regionFlagsGo b e st ls)[i]? = some true →
      (sedRangeGo b e f st ls)[i]? = ls[i]?.map f := by
  intro ls
  induction ls with
  | nil => intro st i h; simp [regionFlagsGo] at h
  | cons l tl ih =>
    intro st i h
    cases st with
    | false =>
      by_cases hb : b l
      · simp [regionFlagsGo, hb] at h
        match i with
        | 0 => simp [sedRangeGo, hb]
        | i + 1 =>
          simp at h
          simp [sedRangeGo, hb]
          exact ih true i h
      · simp [regionFlagsGo, hb] at h
        match i with
        | 0 => simp at h
        | i + 1 =>
          simp at h
          simp [sedRangeGo, hb]
          exact ih false i h
    | true =>
      simp [regionFlagsGo] at h
      match i with
      | 0 => simp [sedRangeGo]
      | i + 1 =>
        simp at h
        simp [sedRangeGo]
        exact ih _ i h

theorem sedRangeGo_no_begin (b e : List Char → Bool) (f : List Char → List Char) :
    ∀ ls, (∀ l ∈ ls, b l = false) → sedRangeGo b e f false ls = ls := by
  intro ls h
  induction ls with
  | nil => rfl
  | cons l tl ih =>
    have hb := h l (by simp)
    simp [sedRangeGo, hb]
    exact ih fun x hx => h x (by simp [hx])

theorem sedRangeGo_no_end (b e : List Char → Bool) (f : List Char → List Char) :
    ∀ ls, (∀ l ∈ ls, e l = false) → sedRangeGo b e f true ls = ls.map f := by
  intro ls h
  induction ls with
  | nil => rfl
  | cons l tl ih =>
    have he := h l (by simp)
    simp [sedRangeGo, he]
    exact ih fun x hx => h x (by simp [hx])

theorem sedRangeGo_append_no_begin (b e : List Char → Bool) (f : List Char → List Char) :
    ∀ pre rest, (∀ l ∈ pre, b l = false) →
      sedRangeGo b e f false (pre ++ rest) = pre ++ sedRangeGo b e f false rest := by
  intro pre rest h
  induction pre with
  | nil => rfl
  | cons l tl ih =>
    have hb := h l (by simp)
    simp only [List.cons_append, sedRangeGo, hb, Bool.false_eq_true, if_false]
    exact congrArg (fun x => l :: x) (ih fun x hx => h x (by simp [hx]))

/-! ### Claim theorems -/

/-- C1: set-version.sh applies the replacer to `dev`-tagged regions for
every new version; to `unstable`-tagged regions exactly when the version
does not end in `-dev`; and to `stable`-tagged regions exactly when the
version contains no `-` at all.  The per-file loop body equals a fold
over this gated region list, and on `2.0.0-dev`, `2.0.0-rc.1` and
`2.0.0` the gated list is respectively `dev` only; `dev, unstable`; and
`dev, unstable, stable`. -/
theorem set_version_release_gating :
    (∀ v : List Char, str "dev" ∈ regionsToApply v) ∧
    (∀ v : List Char, str "unstable" ∈ regionsToApply v ↔ endsWithDev v = false) ∧
    (∀ v : List Char, str "stable" ∈ regionsToApply v ↔ hasDash v = false) ∧
    (∀ (v : List Char) (file : List (List Char)),
      setVersionProcessFile v file =
        (regionsToApply v).foldl (fun f tag => sv_replace v tag f) file) ∧
    regionsToApply (str "2.0.0-dev") = [str "dev"] ∧
    regionsToApply (str "2.0.0-rc.1") = [str "dev", str "unstable"] ∧
    regionsToApply (str "2.0.0") = [str "dev", str "unstable", str "stable"] := by
  refine ⟨?_, ?_, ?_, ?_, ?_, ?_, ?_⟩
  · intro v
    cases hd : endsWithDev v <;> cases hs : hasDash v <;>
      simp [regionsToApply, hd, hs]
  · intro v
    cases hd : endsWithDev v <;> cases hs : hasDash v <;>
      simp [regionsToApply, hd, hs] <;> decide
  · intro v
    cases hd : endsWithDev v <;> cases hs : hasDash v <;>
      simp [regionsToApply, hd, hs] <;> decide
  · intro v file
    cases hd : endsWithDev v <;> cases hs : hasDash v <;>
      simp [setVersionProcessFile, regionsToApply, hd, hs]
  · decide
  · decide
  · decide

/-- C4: inside a matched region, the text `v1.2.3-rc` is rewritten
atomically (suffix included) to `v4.5.6` when the new version is
`4.5.6`; no dangling `-rc` and no partially replaced remnant is left. -/
theorem longest_match_full_token_atomic :
    replace_in_regions_for_file (substSemverLine (str "4.5.6")) (str "dev")
        [str "# region replace dev", str "foo v1.2.3-rc bar", str "# endregion replace dev"] =
      [str "# region replace dev", str "foo v4.5.6 bar", str "# endregion replace dev"] := by
  decide

/-- C5 counterexample: a file with a begin marker and no end marker is
NOT left unchanged — sed extends the unterminated range to the end of
the file, so the line after the lone begin marker is rewritten. -/
theorem lone_begin_marker_rewrites_to_eof :
    replace_in_regions_for_file (substSemverLine (str "4.5.6")) (str "dev")
        [str "# region replace dev", str "v1.2.3"] =
      [str "# region replace dev", str "v4.5.6"] ∧
    replace_in_regions_for_file (substSemverLine (str "4.5.6")) (str "dev")
        [str "# region replace dev", str "v1.2.3"] ≠
      [str "# region replace dev", str "v1.2.3"] := by
  constructor
  · decide
  · decide

/-- C5 amended: an end marker with no begin marker makes the replacer a
no-op on the whole file; but a begin marker with no later end marker
causes the substitution to be applied to the marker line and every
following line, to the end of the file. -/
theorem unmatched_marker_behaviour :
    (∀ (sub : List Char → List Char) (tag : List Char) (file : List (List Char)),
      (∀ l ∈ file, matchesBeginM (str "replace " ++ tag) l = false) →
      replace_in_regions_for_file sub tag file = file) ∧
    (∀ (sub : List Char → List Char) (tag : List Char) (pre : List (List Char))
        (b : List Char) (post : List (List Char)),
      (∀ l ∈ pre, matchesBeginM (str "replace " ++ tag) l = false) →
      matchesBeginM (str "replace " ++ tag) b = true →
      (∀ l ∈ post, matchesEndM (str "replace " ++ tag) l = false) →
      replace_in_regions_for_file sub tag (pre ++ b :: post) =
        pre ++ sub b :: post.map sub) := by
  constructor
  · intro sub tag file h
    exact sedRangeGo_no_begin _ _ _ file h
  · intro sub tag pre b post hpre hb hpost
    unfold replace_in_regions_for_file
    rw [sedRangeGo_append_no_begin _ _ _ pre _ hpre]
    simp only [sedRangeGo, hb, if_true]
    rw [sedRangeGo_no_end _ _ _ post hpost]

/-- C5 amended, witness: a concrete lone-end file is untouched, and a
concrete lone-begin file is rewritten from the marker line onward. -/
theorem unmatched_marker_behaviour_witness :
    replace_in_regions_for_file (substSemverLine (str "4.5.6")) (str "dev")
        [str "v1.2.3", str "# endregion replace dev"] =
      [str "v1.2.3", str "# endregion replace dev"] ∧
    replace_in_regions_for_file (substSemverLine (str "4.5.6")) (str "dev")
        ([str "no markers here"] ++ str "# region replace dev" :: [str "v1.2.3"]) =
      [str "no markers here"] ++
        substSemverLine (str "4.5.6") (str "# region replace dev") ::
        [str "v1.2.3"].map (substSemverLine (str "4.5.6")) := by
  constructor
  · exact unmatched_marker_behaviour.1 _ (str "dev") _ (by decide)
  · exact unmatched_marker_behaviour.2 _ (str "dev") _ _ _ (by decide) (by decide) (by decide)

/-- C8: get-next-dev-version.sh bumps `1.4.2` to `1.5.0-dev`, but on
any released version with minor component `0` (for example `1.0.0`) the
arithmetic command `((minor++))` evaluates to `0`, has exit status 1,
and `set -e` aborts the script before anything is printed — the script
is not total on strict `X.Y.Z` inputs. -/
theorem next_dev_version_minor_zero_fails :
    get_next_dev_version (str "1.4.2") = .ok (str "1.5.0-dev") ∧
    get_next_dev_version (str "1.0.0") = .error () ∧
    get_next_dev_version (str "1.0.2") = .error () ∧
    get_next_dev_version (str "2.9.0") = .ok (str "2.10.0-dev") := by
  refine ⟨?_, ?_, ?_, ?_⟩ <;> rfl

/-- C9: a malformed version argument, a malformed date argument, or an
unknown flag makes the corresponding entry point abort with the
offending input echoed, before any file is transformed: the result is an
error and no replacement output is produced. -/
theorem usage_errors_abort_before_modification :
    (∀ (tag v : List Char) (files : List (List (List Char))),
      validSemver v = false →
      replace_semver_in_regions tag v files =
        .error (str "Please enter a valid semver version like 1.2.3. Got: " ++ v)) ∧
    (∀ (tag d : List Char) (files : List (List (List Char))),
      validDate d = false →
      replace_date_in_regions tag d files =
        .error (str "Please enter a valid date like 2022-01-01. Got: " ++ d)) ∧
    (∀ (nv flag : List Char) (rest : List (List Char)) (files : List (List (List Char))),
      flag ≠ str "--commit" →
      setVersionMain nv (flag :: rest) files =
        .error (str "Unknown option: " ++ flag)) := by
  refine ⟨?_, ?_, ?_⟩
  · intro tag v files hv
    simp [replace_semver_in_regions, hv]
  · intro tag d files hd
    simp [replace_date_in_regions, hd]
  · intro nv flag rest files hf
    have h1 : svParseArgs [] (flag :: rest) = .error (str "Unknown option: " ++ flag) := by
      unfold svParseArgs
      rw [if_neg hf]
    simp [setVersionMain, h1]

/-- C9 witness: concrete malformed inputs abort with an error. -/
theorem usage_errors_abort_before_modification_witness :
    replace_semver_in_regions (str "version dev") (str "1.2")
        [[str "x"]] =
      .error (str "Please enter a valid semver version like 1.2.3. Got: " ++ str "1.2") ∧
    replace_date_in_regions (str "rust toolchain dev") (str "2022-1-01")
        [[str "x"]] =
      .error (str "Please enter a valid date like 2022-01-01. Got: " ++ str "2022-1-01") ∧
    setVersionMain (str "0.1.0") [str "--bogus"] [[str "x"]] =
      .error (str "Unknown option: " ++ str "--bogus") := by
  refine ⟨?_, ?_, ?_⟩
  · exact usage_errors_abort_before_modification.1 _ _ _ (by decide)
  · exact usage_errors_abort_before_modification.2.1 _ _ _ (by decide)
  · exact usage_errors_abort_before_modification.2.2 _ _ _ _ (by decide)

/-- C10: on every run of the snapshot test harness — uninterrupted, or
interrupted at any point by a failing command, SIGINT or SIGTERM — the
temporary directory does not survive the run; the cleanup handler never
runs twice; and whenever the temporary directory was actually created,
the handler runs exactly once. -/
theorem harness_cleanup_exactly_once :
    ∀ intr : Option (Nat × HEvent),
      (runHarness intr).tempExists = false ∧
      (runHarness intr).cleanupRuns ≤ 1 ∧
      ((runHarness intr).tempCreated = true → (runHarness intr).cleanupRuns = 1) := by
  intro intr
  rcases intr with _ | ⟨i, e⟩
  · decide
  · have hstab : ∀ j : Nat, 6 + j ≥ 6 := by omega
    by_cases hi : i < 6
    · interval_cases i <;> cases e <;> decide
    · have h6 : harnessScript.length ≤ i := by simp [harnessScript]; omega
      have ht : harnessScript.take i = harnessScript := List.take_of_length_le h6
      have hd : harnessScript.drop i = [] := List.drop_eq_nil_of_le h6
      cases e <;> simp only [runHarness, ht, hd, signalPath] <;> decide

/-- C10 witness: a SIGINT after the temporary directory was created
leads to a final state with the directory removed and the cleanup
routine run exactly once. -/
theorem harness_cleanup_exactly_once_witness :
    (runHarness (some (3, HEvent.sigint))).tempCreated = true ∧
    (runHarness (some (3, HEvent.sigint))).cleanupRuns = 1 := by
  exact ⟨by decide, (harness_cleanup_exactly_once (some (3, HEvent.sigint))).2.2 (by decide)⟩

/-! ### Character-class facts -/

theorem isWordC_of_digit {c : Char} (h : isDigitC c = true) : isWordC c = true := by
  simp [isWordC, h]

theorem not_v_of_digit {c : Char} (h : isDigitC c = true) : (c == 'v') = false := by
  by_cases hv : c = 'v'
  · subst hv
    exact absurd h (by decide)
  · simp [hv]

theorem isPrefC_digit_false {c : Char} (h : isDigitC c = true) : isPrefC c = false := by
  simp [isPrefC, not_v_of_digit h, isWordC_of_digit h]

theorem nondigit_of_isPrefC {c : Char} (h : isPrefC c = true) : isDigitC c = false := by
  cases hd : isDigitC c with
  | false => rfl
  | true => rw [isPrefC_digit_false hd] at h; exact absurd h (by simp)

/-! ### Run and failure lemmas for the matcher components -/

theorem spanP_run (p : Char → Bool) :
    ∀ D r, (∀ c ∈ D, p c = true) → (∀ c, r.head? = some c → p c = false) →
      spanP p (D ++ r) = (D, r) := by
  intro D r hD hr
  induction D with
  | nil =>
    cases r with
    | nil => rfl
    | cons c tl => exact spanP_cons_neg tl (hr c rfl)
  | cons c D ih =>
    have hc := hD c (by simp)
    rw [List.cons_append, spanP_cons_pos _ hc, ih fun x hx => hD x (by simp [hx])]

theorem digits1_none_of_head {l : List Char}
    (h : ∀ d, l.head? = some d → isDigitC d = false) : digits1 l = none := by
  cases l with
  | nil => rfl
  | cons c tl =>
    have hc := h c rfl
    unfold digits1
    rw [spanP_cons_neg tl hc]
    rfl

theorem digits1_run {D r : List Char} (hD : digitRunB D = true)
    (hr : ∀ d, r.head? = some d → isDigitC d = false) : digits1 (D ++ r) = some (D, r) := by
  have hDne : D.isEmpty = false := by
    simp [digitRunB] at hD
    simp [List.isEmpty_iff, hD.1]
  have hall : ∀ c ∈ D, isDigitC c = true := by
    simp [digitRunB] at hD
    exact hD.2
  unfold digits1
  rw [spanP_run isDigitC D r hall hr]
  simp [hDne]

theorem matchSuffC_none_head {l : List Char} (h : l.head? ≠ some '-') :
    matchSuffC l = ([], l) := by
  cases l with
  | nil => rfl
  | cons c tl =>
    rw [matchSuffC_cons, if_neg]
    intro hc
    exact h (by simp [hc])

theorem matchSuffC_boundary {S r : List Char} (hS : suffixOkB S = true)
    (hb : boundaryOkB S r.head? = true) : matchSuffC (S ++ r) = (S, r) := by
  cases S with
  | nil =>
    cases r with
    | nil => rfl
    | cons c tl =>
      simp [boundaryOkB] at hb
      exact matchSuffC_none_head (by simp; exact fun h => hb.2.2 (by simp [h]))
  | cons c w =>
    simp only [suffixOkB, Bool.and_eq_true] at hS
    obtain ⟨⟨hc, hw⟩, hall⟩ := hS
    have hceq : c = '-' := by simpa using hc
    have hwall : ∀ d ∈ w, isClassC d = true := by
      intro d hd
      have := List.all_eq_true.mp hall d hd
      simp at this
      exact this.1
    have hrhead : ∀ d, r.head? = some d → isClassC d = false := by
      intro d hd
      simp [boundaryOkB] at hb
      cases r with
      | nil => simp at hd
      | cons x tl =>
        simp at hd
        subst hd
        simp at hb
        exact hb.2
    rw [List.cons_append, matchSuffC_cons, if_pos hceq,
      spanP_run isClassC w r hwall hrhead]
    have hwne : w.isEmpty = false := by
      simp [List.isEmpty_iff]
      intro hwe
      rw [hwe] at hw
      simp at hw
    simp [hwne, hceq]

theorem matchFullP_cons (c : Char) (tl : List Char) :
    matchFullP (c :: tl) =
      (if isPrefC c then
        match digits1 tl with
        | none => none
        | some (d1, r1) =>
          match expectDot r1 with
          | none => none
          | some r2 =>
            match digits1 r2 with
            | none => none
            | some (d2, r3) =>
              match expectDot r3 with
              | none => none
              | some r4 =>
                match digits1 r4 with
                | none => none
                | some (d3, r5) =>
                  some (c :: (d1 ++ '.' :: (d2 ++ '.' :: (d3 ++ (matchSuffC r5).1))),
                    (matchSuffC r5).2)
      else none) := rfl

theorem matchMinorP_cons (c : Char) (tl : List Char) :
    matchMinorP (c :: tl) =
      (if isPrefC c then
        match digits1 tl with
        | none => none
        | some (d1, r1) =>
          match expectDot r1 with
          | none => none
          | some r2 =>
            match digits1 r2 with
            | none => none
            | some (d2, r3) =>
              some (c :: (d1 ++ '.' :: (d2 ++ (matchSuffC r3).1)), (matchSuffC r3).2)
      else none) := rfl

theorem matchMajorP_cons (c : Char) (tl : List Char) :
    matchMajorP (c :: tl) =
      (if c == 'v' then
        match digits1 tl with
        | none => none
        | some (d, r1) =>
          some ('v' :: (d ++ (matchSuffC r1).1), (matchSuffC r1).2)
      else none) := rfl

/-- Any matcher position whose next character is not a digit fails for
the full pattern. -/
theorem matchFullP_none_hd {c : Char} {tl : List Char}
    (h : ∀ d, tl.head? = some d → isDigitC d = false) : matchFullP (c :: tl) = none := by
  rw [matchFullP_cons]
  by_cases hp : isPrefC c
  · rw [if_pos hp, digits1_none_of_head h]
  · rw [if_neg hp]

theorem matchMinorP_none_hd {c : Char} {tl : List Char}
    (h : ∀ d, tl.head? = some d → isDigitC d = false) : matchMinorP (c :: tl) = none := by
  rw [matchMinorP_cons]
  by_cases hp : isPrefC c
  · rw [if_pos hp, digits1_none_of_head h]
  · rw [if_neg hp]

theorem matchMajorP_none_hd {c : Char} {tl : List Char}
    (h : ∀ d, tl.head? = some d → isDigitC d = false) : matchMajorP (c :: tl) = none := by
  rw [matchMajorP_cons]
  by_cases hp : (c == 'v') = true
  · rw [if_pos hp, digits1_none_of_head h]
  · rw [if_neg hp]

/-- A digit cannot start a match (it is neither `v` nor a non-word
character). -/
theorem matchFullP_none_digit {c : Char} {tl : List Char} (h : isDigitC c = true) :
    matchFullP (c :: tl) = none := by
  rw [matchFullP_cons, if_neg]
  simp [isPrefC_digit_false h]

theorem matchMinorP_none_digit {c : Char} {tl : List Char} (h : isDigitC c = true) :
    matchMinorP (c :: tl) = none := by
  rw [matchMinorP_cons, if_neg]
  simp [isPrefC_digit_false h]

theorem matchMajorP_none_not_v {c : Char} {tl : List Char} (h : (c == 'v') = false) :
    matchMajorP (c :: tl) = none := by
  rw [matchMajorP_cons, if_neg]
  simp [h]

theorem head_nondigit_of_all {r : List Char} (h : ∀ d ∈ r, isDigitC d = false) :
    ∀ d, r.head? = some d → isDigitC d = false := by
  intro d hd
  cases r with
  | nil => simp at hd
  | cons x rs =>
    simp at hd
    exact hd ▸ h x (by simp)

theorem boundaryOkB_nondigit {S : List Char} {nx : Option Char}
    (h : boundaryOkB S nx = true) : ∀ d, nx = some d → isDigitC d = false := by
  intro d hd
  subst hd
  simp [boundaryOkB] at h
  exact h.1

/-- One digit group followed by something that cannot continue the
pattern (head not `.`): the full rule fails at this position. -/
theorem matchFullP_none_run1 {c : Char} {D r : List Char} (hD : digitRunB D = true)
    (hr : ∀ d, r.head? = some d → isDigitC d = false) (hdot : r.head? ≠ some '.') :
    matchFullP (c :: (D ++ r)) = none := by
  rw [matchFullP_cons]
  by_cases hp : isPrefC c
  · rw [if_pos hp, digits1_run hD hr]
    dsimp only
    cases r with
    | nil => simp [expectDot]
    | cons x rs =>
      rw [expectDot_cons, if_neg]
      intro hx
      exact hdot (by simp [hx])
  · rw [if_neg hp]

/-- One digit group followed by a digit-free remainder: the full rule
fails at this position (even when a `.` follows, no digits can come
after it). -/
theorem matchFullP_none_run1_dfree {c : Char} {D r : List Char} (hD : digitRunB D = true)
    (hr : ∀ d ∈ r, isDigitC d = false) : matchFullP (c :: (D ++ r)) = none := by
  rw [matchFullP_cons]
  by_cases hp : isPrefC c
  · rw [if_pos hp, digits1_run hD (head_nondigit_of_all hr)]
    dsimp only
    cases r with
    | nil => simp [expectDot]
    | cons x rs =>
      rw [expectDot_cons]
      by_cases hx : x = '.'
      · rw [if_pos hx]
        dsimp only
        rw [digits1_none_of_head (head_nondigit_of_all fun d hd => hr d (by simp [hd]))]
      · rw [if_neg hx]
  · rw [if_neg hp]

/-- Two digit groups followed by something that cannot continue: the
full rule (which needs a third group) fails at this position. -/
theorem matchFullP_none_run2 {c : Char} {A B r : List Char}
    (hA : digitRunB A = true) (hB : digitRunB B = true)
    (hr : ∀ d, r.head? = some d → isDigitC d = false) (hdot : r.head? ≠ some '.') :
    matchFullP (c :: (A ++ '.' :: (B ++ r))) = none := by
  rw [matchFullP_cons]
  by_cases hp : isPrefC c
  · rw [if_pos hp, digits1_run hA (by simp; decide)]
    dsimp only
    rw [expectDot_cons, if_pos rfl]
    dsimp only
    rw [digits1_run hB hr]
    dsimp only
    cases r with
    | nil => simp [expectDot]
    | cons x rs =>
      rw [expectDot_cons, if_neg]
      intro hx
      exact hdot (by simp [hx])
  · rw [if_neg hp]

/-- The minor rule fails after one digit group when the next character
is not `.`. -/
theorem matchMinorP_none_run1 {c : Char} {D r : List Char} (hD : digitRunB D = true)
    (hr : ∀ d, r.head? = some d → isDigitC d = false) (hdot : r.head? ≠ some '.') :
    matchMinorP (c :: (D ++ r)) = none := by
  rw [matchMinorP_cons]
  by_cases hp : isPrefC c
  · rw [if_pos hp, digits1_run hD hr]
    dsimp only
    cases r with
    | nil => simp [expectDot]
    | cons x rs =>
      rw [expectDot_cons, if_neg]
      intro hx
      exact hdot (by simp [hx])
  · rw [if_neg hp]

/-- The minor rule fails after one digit group when the remainder is
digit-free. -/
theorem matchMinorP_none_run1_dfree {c : Char} {D r : List Char} (hD : digitRunB D = true)
    (hr : ∀ d ∈ r, isDigitC d = false) : matchMinorP (c :: (D ++ r)) = none := by
  rw [matchMinorP_cons]
  by_cases hp : isPrefC c
  · rw [if_pos hp, digits1_run hD (head_nondigit_of_all hr)]
    dsimp only
    cases r with
    | nil => simp [expectDot]
    | cons x rs =>
      rw [expectDot_cons]
      by_cases hx : x = '.'
      · rw [if_pos hx]
        dsimp only
        rw [digits1_none_of_head (head_nondigit_of_all fun d hd => hr d (by simp [hd]))]
      · rw [if_neg hx]
  · rw [if_neg hp]

/-- Complete match of the full rule on a well-bounded token. -/
theorem matchFullP_run {p : Char} {A B C S r : List Char} (hp : isPrefC p = true)
    (hA : digitRunB A = true) (hB : digitRunB B = true) (hC : digitRunB C = true)
    (hS : suffixOkB S = true) (hb : boundaryOkB S r.head? = true) :
    matchFullP (p :: (A ++ '.' :: (B ++ '.' :: (C ++ (S ++ r))))) =
      some (p :: (A ++ '.' :: (B ++ '.' :: (C ++ S))), r) := by
  have hSr : ∀ d, (S ++ r).head? = some d → isDigitC d = false := by
    intro d hd
    cases S with
    | nil => exact boundaryOkB_nondigit hb d hd
    | cons x w =>
      simp at hd
      simp [suffixOkB] at hS
      have : x = '-' := by simpa using hS.1.1
      subst hd
      rw [this]
      decide
  rw [matchFullP_cons, if_pos hp, digits1_run hA (by simp; decide)]
  dsimp only
  rw [expectDot_cons, if_pos rfl]
  dsimp only
  rw [digits1_run hB (by simp; decide)]
  dsimp only
  rw [expectDot_cons, if_pos rfl]
  dsimp only
  rw [digits1_run hC hSr]
  dsimp only
  rw [matchSuffC_boundary hS hb]

/-- Complete match of the minor rule on a well-bounded token. -/
theorem matchMinorP_run {p : Char} {A B S r : List Char} (hp : isPrefC p = true)
    (hA : digitRunB A = true) (hB : digitRunB B = true)
    (hS : suffixOkB S = true) (hb : boundaryOkB S r.head? = true) :
    matchMinorP (p :: (A ++ '.' :: (B ++ (S ++ r)))) =
      some (p :: (A ++ '.' :: (B ++ S)), r) := by
  have hSr : ∀ d, (S ++ r).head? = some d → isDigitC d = false := by
    intro d hd
    cases S with
    | nil => exact boundaryOkB_nondigit hb d hd
    | cons x w =>
      simp at hd
      simp [suffixOkB] at hS
      have : x = '-' := by simpa using hS.1.1
      subst hd
      rw [this]
      decide
  rw [matchMinorP_cons, if_pos hp, digits1_run hA (by simp; decide)]
  dsimp only
  rw [expectDot_cons, if_pos rfl]
  dsimp only
  rw [digits1_run hB hSr]
  dsimp only
  rw [matchSuffC_boundary hS hb]

/-- The minor rule consumes the leading `prefix X.Y` of a canonical full
version, leaving the `.Z...` tail (which cannot start a suffix). -/
theorem matchMinorP_run_partial {p : Char} {A B w : List Char} (hp : isPrefC p = true)
    (hA : digitRunB A = true) (hB : digitRunB B = true) :
    matchMinorP (p :: (A ++ '.' :: (B ++ '.' :: w))) =
      some (p :: (A ++ '.' :: B), '.' :: w) := by
  rw [matchMinorP_cons, if_pos hp, digits1_run hA (by simp; decide)]
  dsimp only
  rw [expectDot_cons, if_pos rfl]
  dsimp only
  rw [digits1_run hB (by simp; decide)]
  dsimp only
  rw [matchSuffC_none_head (by simp)]
  simp

/-- The major rule matches `v` plus digits when no suffix follows. -/
theorem matchMajorP_run_nosuff {A r : List Char} (hA : digitRunB A = true)
    (hr : ∀ d, r.head? = some d → isDigitC d = false) (hdash : r.head? ≠ some '-') :
    matchMajorP ('v' :: (A ++ r)) = some ('v' :: A, r) := by
  rw [matchMajorP_cons, if_pos (by decide), digits1_run hA hr]
  dsimp only
  rw [matchSuffC_none_head hdash]
  simp

/-- The major rule matches `v` plus digits plus a well-bounded
suffix. -/
theorem matchMajorP_run_suff {A S r : List Char} (hA : digitRunB A = true)
    (hS : suffixOkB S = true) (hSne : S ≠ [])
    (hb : boundaryOkB S r.head? = true) :
    matchMajorP ('v' :: (A ++ (S ++ r))) = some ('v' :: (A ++ S), r) := by
  have hSr : ∀ d, (S ++ r).head? = some d → isDigitC d = false := by
    intro d hd
    cases S with
    | nil => exact absurd rfl hSne
    | cons x w =>
      simp at hd
      simp [suffixOkB] at hS
      have : x = '-' := by simpa using hS.1.1
      subst hd
      rw [this]
      decide
  rw [matchMajorP_cons, if_pos (by decide), digits1_run hA hSr]
  dsimp only
  rw [matchSuffC_boundary hS hb]

/-! ### Generic skip and match lemmas for the scanner -/

theorem substGlob_skip_nondigit {m : List Char → Option (List Char × List Char)}
    {rep : List Char → List Char}
    (hA : ∀ c tl, (∀ d, tl.head? = some d → isDigitC d = false) → m (c :: tl) = none) :
    ∀ s rest, (∀ c ∈ s, isDigitC c = false) →
      (∀ d, rest.head? = some d → isDigitC d = false) →
      substGlob m rep (s ++ rest) = s ++ substGlob m rep rest := by
  intro s rest hs hr
  induction s with
  | nil => rfl
  | cons c s ih =>
    have hnone : m (c :: (s ++ rest)) = none := by
      apply hA
      intro d hd
      cases s with
      | nil => exact hr d hd
      | cons x xs =>
        simp at hd
        subst hd
        exact hs x (by simp)
    rw [List.cons_append, substGlob_cons_none hnone]
    rw [ih fun x hx => hs x (by simp [hx])]
    rfl

theorem substGlob_skip_digits {m : List Char → Option (List Char × List Char)}
    {rep : List Char → List Char}
    (hB : ∀ c tl, isDigitC c = true → m (c :: tl) = none) :
    ∀ D rest, (∀ c ∈ D, isDigitC c = true) →
      substGlob m rep (D ++ rest) = D ++ substGlob m rep rest := by
  intro D rest hD
  induction D with
  | nil => rfl
  | cons c D ih =>
    rw [List.cons_append, substGlob_cons_none (hB c _ (hD c (by simp)))]
    rw [ih fun x hx => hD x (by simp [hx])]
    rfl

theorem substGlob_match {m : List Char → Option (List Char × List Char)}
    {rep : List Char → List Char}
    (hm : ∀ {l t r : List Char}, m l = some (t, r) → l = t ++ r ∧ t ≠ [])
    {t rest : List Char} (h : m (t ++ rest) = some (t, rest)) :
    substGlob m rep (t ++ rest) = rep t ++ substGlob m rep rest := by
  have hne : t ≠ [] := (hm h).2
  cases t with
  | nil => exact absurd rfl hne
  | cons c t =>
    rw [List.cons_append] at h ⊢
    exact substGlob_cons_match hm h

/-! ### Facts about rendered segment lists -/

theorem renderSegs_nil : renderSegs [] = [] := rfl

theorem renderSegs_cons (x : VSeg) (xs : List VSeg) :
    renderSegs (x :: xs) = renderSeg x ++ renderSegs xs := by
  simp [renderSegs]

theorem wfSegsB_cons {x : VSeg} {xs : List VSeg} (h : wfSegsB (x :: xs) = true) :
    segOkB x = true ∧ segBoundary x (renderSegs xs).head? = true ∧ wfSegsB xs = true := by
  simp only [wfSegsB, Bool.and_eq_true] at h
  exact ⟨h.1.1, h.1.2, h.2⟩

theorem digitRunB_all {D : List Char} (h : digitRunB D = true) :
    ∀ c ∈ D, isDigitC c = true := by
  simp only [digitRunB, Bool.and_eq_true, List.all_eq_true] at h
  exact fun c hc => h.2 c hc

theorem digitRunB_ne {D : List Char} (h : digitRunB D = true) : D ≠ [] := by
  simp only [digitRunB, Bool.and_eq_true] at h
  have := h.1
  simp [List.isEmpty_iff] at this
  exact this

theorem suff_chars_nondigit {S : List Char} (hS : suffixOkB S = true) :
    ∀ c ∈ S, isDigitC c = false := by
  cases S with
  | nil => simp
  | cons x w =>
    simp only [suffixOkB, Bool.and_eq_true] at hS
    intro c hc
    simp at hc
    rcases hc with hceq | hc
    · rw [hceq]
      have hx : x = '-' := by simpa using hS.1.1
      rw [hx]
      decide
    · have := List.all_eq_true.mp hS.2 c hc
      simp at this
      exact this.2

theorem boundaryOkB_nil_facts {nx : Option Char} (h : boundaryOkB [] nx = true) :
    ∀ d, nx = some d → isDigitC d = false ∧ d ≠ '.' ∧ d ≠ '-' := by
  intro d hd
  subst hd
  simp [boundaryOkB] at h
  exact ⟨h.1, h.2.1, h.2.2⟩

theorem boundaryOkB_cons_facts {x : Char} {w : List Char} {nx : Option Char}
    (h : boundaryOkB (x :: w) nx = true) :
    ∀ d, nx = some d → isClassC d = false := by
  intro d hd
  subst hd
  simp [boundaryOkB] at h
  exact h.2

/-- Head facts for a suffix followed by further rendered content. -/
theorem suff_append_head {S rest : List Char} (hS : suffixOkB S = true)
    (hb : boundaryOkB S rest.head? = true) :
    ∀ d, (S ++ rest).head? = some d → isDigitC d = false ∧ d ≠ '.' := by
  intro d hd
  cases S with
  | nil =>
    simp at hd
    obtain ⟨h1, h2, _⟩ := boundaryOkB_nil_facts hb d hd
    exact ⟨h1, h2⟩
  | cons x w =>
    simp at hd
    simp only [suffixOkB, Bool.and_eq_true] at hS
    have hx : x = '-' := by simpa using hS.1.1
    subst hd
    rw [hx]
    exact ⟨by decide, by decide⟩

theorem suff_append_head_nondigit {S rest : List Char} (hS : suffixOkB S = true)
    (hb : boundaryOkB S rest.head? = true) :
    ∀ d, (S ++ rest).head? = some d → isDigitC d = false :=
  fun d hd => (suff_append_head hS hb d hd).1

theorem suff_append_head_nodot {S rest : List Char} (hS : suffixOkB S = true)
    (hb : boundaryOkB S rest.head? = true) : (S ++ rest).head? ≠ some '.' := by
  intro hd
  exact absurd rfl (suff_append_head hS hb '.' hd).2

theorem renderSegs_head_nondigit :
    ∀ xs : List VSeg, wfSegsB xs = true →
      ∀ d, (renderSegs xs).head? = some d → isDigitC d = false := by
  intro xs
  induction xs with
  | nil =>
    intro _ d hd
    simp [renderSegs] at hd
  | cons x xs ih =>
    intro h d hd
    obtain ⟨hok, _, hwf⟩ := wfSegsB_cons h
    rw [renderSegs_cons] at hd
    cases x with
    | ctx s =>
      cases s with
      | nil =>
        simp [renderSeg] at hd
        exact ih hwf d hd
      | cons c cs =>
        simp [renderSeg] at hd
        simp only [segOkB, List.all_eq_true] at hok
        have := hok c (by simp)
        simp at this
        rw [← hd]
        exact this
    | fullT p a b c s =>
      simp [renderSeg] at hd
      rw [← hd]
      simp only [segOkB, Bool.and_eq_true] at hok
      exact nondigit_of_isPrefC hok.1.1.1.1
    | minorT p a b s =>
      simp [renderSeg] at hd
      rw [← hd]
      simp only [segOkB, Bool.and_eq_true] at hok
      exact nondigit_of_isPrefC hok.1.1.1
    | majorT a s =>
      simp [renderSeg] at hd
      rw [← hd]
      decide

/-- The full-version pass on a well-separated line: every full token is
rewritten to `prefix ++ X.Y.Z`, everything else is untouched. -/
theorem pass1_segs (X Y Z : List Char) :
    ∀ segs, wfSegsB segs = true →
      substGlob matchFullP (repKeepHead (X ++ '.' :: (Y ++ '.' :: Z))) (renderSegs segs) =
        renderSegs (segs.map (canon1 X Y Z)) := by
  intro segs
  induction segs with
  | nil => intro _; rfl
  | cons x xs ih =>
    intro h
    obtain ⟨hok, hbd, hwf⟩ := wfSegsB_cons h
    have hrest := renderSegs_head_nondigit xs hwf
    rw [renderSegs_cons, List.map_cons, renderSegs_cons]
    cases x with
    | ctx s =>
      have hs : ∀ c ∈ s, isDigitC c = false := by
        simp only [segOkB, List.all_eq_true] at hok
        intro c hc
        have := hok c hc
        simpa using this
      rw [show renderSeg (VSeg.ctx s) = s from rfl,
        substGlob_skip_nondigit (fun c tl hh => matchFullP_none_hd hh) s _ hs hrest,
        ih hwf]
      rfl
    | fullT p a b c s =>
      simp only [segOkB, Bool.and_eq_true] at hok
      obtain ⟨⟨⟨⟨hp, ha⟩, hb⟩, hc⟩, hsuf⟩ := hok
      have hbd' : boundaryOkB s (renderSegs xs).head? = true := hbd
      have hrun := matchFullP_run (p := p) (A := a) (B := b) (C := c) (S := s)
        (r := renderSegs xs) hp ha hb hc hsuf hbd'
      have hshape : renderSeg (VSeg.fullT p a b c s) ++ renderSegs xs =
          (p :: (a ++ '.' :: (b ++ '.' :: (c ++ s)))) ++ renderSegs xs := by
        simp [renderSeg]
      rw [hshape]
      rw [substGlob_match (fun hx => matchFullP_split hx)
        (by simpa [List.append_assoc] using hrun)]
      rw [ih hwf]
      simp [repKeepHead, renderSeg, canon1]
    | minorT p a b s =>
      simp only [segOkB, Bool.and_eq_true] at hok
      obtain ⟨⟨⟨hp, ha⟩, hb⟩, hsuf⟩ := hok
      have hbd' : boundaryOkB s (renderSegs xs).head? = true := hbd
      have hsr1 : ∀ d, (s ++ renderSegs xs).head? = some d → isDigitC d = false :=
        suff_append_head_nondigit hsuf hbd'
      have hsr2 : (s ++ renderSegs xs).head? ≠ some '.' :=
        suff_append_head_nodot hsuf hbd'
      have hshape : renderSeg (VSeg.minorT p a b s) ++ renderSegs xs =
          p :: (a ++ '.' :: (b ++ (s ++ renderSegs xs))) := by
        simp [renderSeg]
      rw [hshape]
      rw [substGlob_cons_none (matchFullP_none_run2 ha hb hsr1 hsr2)]
      rw [substGlob_skip_digits (fun c tl hdig => matchFullP_none_digit hdig)
        a _ (digitRunB_all ha)]
      rw [substGlob_cons_none (matchFullP_none_run1 hb hsr1 hsr2)]
      rw [substGlob_skip_digits (fun c tl hdig => matchFullP_none_digit hdig)
        b _ (digitRunB_all hb)]
      rw [substGlob_skip_nondigit (fun c tl hh => matchFullP_none_hd hh)
        s _ (suff_chars_nondigit hsuf) hrest]
      rw [ih hwf]
      simp [renderSeg, canon1]
    | majorT a s =>
      simp only [segOkB, Bool.and_eq_true] at hok
      obtain ⟨ha, hsuf⟩ := hok
      have hbd' : boundaryOkB s (renderSegs xs).head? = true := hbd
      have hsr1 : ∀ d, (s ++ renderSegs xs).head? = some d → isDigitC d = false :=
        suff_append_head_nondigit hsuf hbd'
      have hsr2 : (s ++ renderSegs xs).head? ≠ some '.' :=
        suff_append_head_nodot hsuf hbd'
      have hshape : renderSeg (VSeg.majorT a s) ++ renderSegs xs =
          'v' :: (a ++ (s ++ renderSegs xs)) := by
        simp [renderSeg]
      rw [hshape]
      rw [substGlob_cons_none (matchFullP_none_run1 ha hsr1 hsr2)]
      rw [substGlob_skip_digits (fun c tl hdig => matchFullP_none_digit hdig)
        a _ (digitRunB_all ha)]
      rw [substGlob_skip_nondigit (fun c tl hh => matchFullP_none_hd hh)
        s _ (suff_chars_nondigit hsuf) hrest]
      rw [ih hwf]
      simp [renderSeg, canon1]

theorem fullsCanon_tail {X Y Z : List Char} {x : VSeg} {xs : List VSeg}
    (h : fullsCanon X Y Z (x :: xs)) : fullsCanon X Y Z xs :=
  fun p a b c s hm => h p a b c s (by simp [hm])

theorem minorsCanon_tail {X Y : List Char} {x : VSeg} {xs : List VSeg}
    (h : minorsCanon X Y (x :: xs)) : minorsCanon X Y xs :=
  fun p a b s hm => h p a b s (by simp [hm])

/-- The minor-version pass on a well-separated line whose full tokens
are already canonical: every minor token is rewritten to
`prefix ++ X.Y`, the leading `prefix X.Y` of each canonical full token
is rewritten to itself, and everything else is untouched. -/
theorem pass2_segs (X Y Z : List Char) :
    ∀ segs, wfSegsB segs = true → fullsCanon X Y Z segs →
      substGlob matchMinorP (repKeepHead (X ++ '.' :: Y)) (renderSegs segs) =
        renderSegs (segs.map (canon2 X Y)) := by
  intro segs
  induction segs with
  | nil => intro _ _; rfl
  | cons x xs ih =>
    intro h hfc
    obtain ⟨hok, hbd, hwf⟩ := wfSegsB_cons h
    have hrest := renderSegs_head_nondigit xs hwf
    rw [renderSegs_cons, List.map_cons, renderSegs_cons]
    cases x with
    | ctx s =>
      have hs : ∀ c ∈ s, isDigitC c = false := by
        simp only [segOkB, List.all_eq_true] at hok
        intro c hc
        simpa using hok c hc
      rw [show renderSeg (VSeg.ctx s) = s from rfl,
        substGlob_skip_nondigit (fun c tl hh => matchMinorP_none_hd hh) s _ hs hrest,
        ih hwf (fullsCanon_tail hfc)]
      rfl
    | fullT p a b c s =>
      obtain ⟨haX, hbY, hcZ, hsE⟩ := hfc p a b c s (by simp)
      rw [haX, hbY, hcZ, hsE] at hok hbd ⊢
      simp only [segOkB, Bool.and_eq_true] at hok
      obtain ⟨⟨⟨⟨hp, hX⟩, hY⟩, hZ⟩, _⟩ := hok
      have hbd' : boundaryOkB ([] : List Char) (renderSegs xs).head? = true := hbd
      have hshape : renderSeg (VSeg.fullT p X Y Z []) ++ renderSegs xs =
          (p :: (X ++ '.' :: Y)) ++ ('.' :: (Z ++ renderSegs xs)) := by
        simp [renderSeg]
      rw [hshape]
      rw [substGlob_match (fun hx => matchMinorP_split hx)
        (by simpa [List.append_assoc] using
          matchMinorP_run_partial (w := Z ++ renderSegs xs) hp hX hY)]
      have hz1 : ∀ d, (renderSegs xs).head? = some d → isDigitC d = false := hrest
      have hz2 : (renderSegs xs).head? ≠ some '.' := by
        intro hcon
        exact absurd rfl (boundaryOkB_nil_facts hbd' '.' hcon).2.1
      rw [substGlob_cons_none (matchMinorP_none_run1 hZ hz1 hz2)]
      rw [substGlob_skip_digits (fun c tl hdig => matchMinorP_none_digit hdig)
        Z _ (digitRunB_all hZ)]
      rw [ih hwf (fullsCanon_tail hfc)]
      simp [repKeepHead, renderSeg, canon2]
    | minorT p a b s =>
      simp only [segOkB, Bool.and_eq_true] at hok
      obtain ⟨⟨⟨hp, ha⟩, hb2⟩, hsuf⟩ := hok
      have hbd' : boundaryOkB s (renderSegs xs).head? = true := hbd
      have hshape : renderSeg (VSeg.minorT p a b s) ++ renderSegs xs =
          (p :: (a ++ '.' :: (b ++ s))) ++ renderSegs xs := by
        simp [renderSeg]
      rw [hshape]
      rw [substGlob_match (fun hx => matchMinorP_split hx)
        (by simpa [List.append_assoc] using
          matchMinorP_run (r := renderSegs xs) hp ha hb2 hsuf hbd')]
      rw [ih hwf (fullsCanon_tail hfc)]
      simp [repKeepHead, renderSeg, canon2]
    | majorT a s =>
      simp only [segOkB, Bool.and_eq_true] at hok
      obtain ⟨ha, hsuf⟩ := hok
      have hbd' : boundaryOkB s (renderSegs xs).head? = true := hbd
      have hsr1 : ∀ d, (s ++ renderSegs xs).head? = some d → isDigitC d = false :=
        suff_append_head_nondigit hsuf hbd'
      have hsr2 : (s ++ renderSegs xs).head? ≠ some '.' :=
        suff_append_head_nodot hsuf hbd'
      have hshape : renderSeg (VSeg.majorT a s) ++ renderSegs xs =
          'v' :: (a ++ (s ++ renderSegs xs)) := by
        simp [renderSeg]
      rw [hshape]
      rw [substGlob_cons_none (matchMinorP_none_run1 ha hsr1 hsr2)]
      rw [substGlob_skip_digits (fun c tl hdig => matchMinorP_none_digit hdig)
        a _ (digitRunB_all ha)]
      rw [substGlob_skip_nondigit (fun c tl hh => matchMinorP_none_hd hh)
        s _ (suff_chars_nondigit hsuf) hrest]
      rw [ih hwf (fullsCanon_tail hfc)]
      simp [renderSeg, canon2]

/-- The major-version pass on a well-separated line whose full and minor
tokens are already canonical: every major token is rewritten to `vX`,
the leading `vX`-part of canonical tokens with a `v` prefix is rewritten
to itself, and everything else is untouched. -/
theorem pass3_segs (X Y Z : List Char) :
    ∀ segs, wfSegsB segs = true → fullsCanon X Y Z segs → minorsCanon X Y segs →
      substGlob matchMajorP (fun _ => 'v' :: X) (renderSegs segs) =
        renderSegs (segs.map (canon3 X)) := by
  intro segs
  induction segs with
  | nil => intro _ _ _; rfl
  | cons x xs ih =>
    intro h hfc hmc
    obtain ⟨hok, hbd, hwf⟩ := wfSegsB_cons h
    have hrest := renderSegs_head_nondigit xs hwf
    have ihx := ih hwf (fullsCanon_tail hfc) (minorsCanon_tail hmc)
    rw [renderSegs_cons, List.map_cons, renderSegs_cons]
    have hBdig : ∀ (c : Char) (tl : List Char), isDigitC c = true →
        matchMajorP (c :: tl) = none :=
      fun c tl hdig => matchMajorP_none_not_v (not_v_of_digit hdig)
    cases x with
    | ctx s =>
      have hs : ∀ c ∈ s, isDigitC c = false := by
        simp only [segOkB, List.all_eq_true] at hok
        intro c hc
        simpa using hok c hc
      rw [show renderSeg (VSeg.ctx s) = s from rfl,
        substGlob_skip_nondigit (fun c tl hh => matchMajorP_none_hd hh) s _ hs hrest,
        ihx]
      rfl
    | fullT p a b c s =>
      obtain ⟨haX, hbY, hcZ, hsE⟩ := hfc p a b c s (by simp)
      rw [haX, hbY, hcZ, hsE] at hok hbd ⊢
      simp only [segOkB, Bool.and_eq_true] at hok
      obtain ⟨⟨⟨⟨hp, hX⟩, hY⟩, hZ⟩, _⟩ := hok
      have htail :
          substGlob matchMajorP (fun _ => 'v' :: X) ('.' :: (Y ++ '.' :: (Z ++ renderSegs xs))) =
            '.' :: (Y ++ '.' :: (Z ++ renderSegs (xs.map (canon3 X)))) := by
        rw [substGlob_cons_none (matchMajorP_none_not_v (by decide)),
          substGlob_skip_digits hBdig Y _ (digitRunB_all hY),
          substGlob_cons_none (matchMajorP_none_not_v (by decide)),
          substGlob_skip_digits hBdig Z _ (digitRunB_all hZ), ihx]
      by_cases hpv : p = 'v'
      · subst hpv
        have hshape : renderSeg (VSeg.fullT 'v' X Y Z []) ++ renderSegs xs =
            ('v' :: X) ++ ('.' :: (Y ++ '.' :: (Z ++ renderSegs xs))) := by
          simp [renderSeg]
        have hmatch : matchMajorP (('v' :: X) ++ ('.' :: (Y ++ '.' :: (Z ++ renderSegs xs)))) =
            some ('v' :: X, '.' :: (Y ++ '.' :: (Z ++ renderSegs xs))) := by
          have := matchMajorP_run_nosuff (A := X)
            (r := '.' :: (Y ++ '.' :: (Z ++ renderSegs xs))) hX
            (by intro d hd; simp at hd; rw [← hd]; decide) (by simp)
          simpa [List.append_assoc] using this
        rw [hshape, substGlob_match (fun hx => matchMajorP_split hx) hmatch, htail]
        simp [renderSeg, canon3]
      · have hshape : renderSeg (VSeg.fullT p X Y Z []) ++ renderSegs xs =
            p :: (X ++ ('.' :: (Y ++ '.' :: (Z ++ renderSegs xs)))) := by
          simp [renderSeg]
        rw [hshape]
        rw [substGlob_cons_none (matchMajorP_none_not_v (by simp [hpv])),
          substGlob_skip_digits hBdig X _ (digitRunB_all hX), htail]
        simp [renderSeg, canon3]
    | minorT p a b s =>
      obtain ⟨haX, hbY, hsE⟩ := hmc p a b s (by simp)
      rw [haX, hbY, hsE] at hok hbd ⊢
      simp only [segOkB, Bool.and_eq_true] at hok
      obtain ⟨⟨⟨hp, hX⟩, hY⟩, _⟩ := hok
      have htail :
          substGlob matchMajorP (fun _ => 'v' :: X) ('.' :: (Y ++ renderSegs xs)) =
            '.' :: (Y ++ renderSegs (xs.map (canon3 X))) := by
        rw [substGlob_cons_none (matchMajorP_none_not_v (by decide)),
          substGlob_skip_digits hBdig Y _ (digitRunB_all hY), ihx]
      by_cases hpv : p = 'v'
      · subst hpv
        have hshape : renderSeg (VSeg.minorT 'v' X Y []) ++ renderSegs xs =
            ('v' :: X) ++ ('.' :: (Y ++ renderSegs xs)) := by
          simp [renderSeg]
        have hmatch : matchMajorP (('v' :: X) ++ ('.' :: (Y ++ renderSegs xs))) =
            some ('v' :: X, '.' :: (Y ++ renderSegs xs)) := by
          have := matchMajorP_run_nosuff (A := X) (r := '.' :: (Y ++ renderSegs xs)) hX
            (by intro d hd; simp at hd; rw [← hd]; decide) (by simp)
          simpa [List.append_assoc] using this
        rw [hshape, substGlob_match (fun hx => matchMajorP_split hx) hmatch, htail]
        simp [renderSeg, canon3]
      · have hshape : renderSeg (VSeg.minorT p X Y []) ++ renderSegs xs =
            p :: (X ++ ('.' :: (Y ++ renderSegs xs))) := by
          simp [renderSeg]
        rw [hshape]
        rw [substGlob_cons_none (matchMajorP_none_not_v (by simp [hpv])),
          substGlob_skip_digits hBdig X _ (digitRunB_all hX), htail]
        simp [renderSeg, canon3]
    | majorT a s =>
      simp only [segOkB, Bool.and_eq_true] at hok
      obtain ⟨ha, hsuf⟩ := hok
      have hbd' : boundaryOkB s (renderSegs xs).head? = true := hbd
      cases hse : s with
      | nil =>
        subst hse
        have hshape : renderSeg (VSeg.majorT a []) ++ renderSegs xs =
            ('v' :: a) ++ renderSegs xs := by
          simp [renderSeg]
        have hmatch : matchMajorP (('v' :: a) ++ renderSegs xs) =
            some ('v' :: a, renderSegs xs) := by
          have := matchMajorP_run_nosuff (A := a) (r := renderSegs xs) ha hrest
            (fun hcon => absurd rfl (boundaryOkB_nil_facts hbd' '-' hcon).2.2)
          simpa [List.append_assoc] using this
        rw [hshape, substGlob_match (fun hx => matchMajorP_split hx) hmatch, ihx]
        simp [renderSeg, canon3]
      | cons sc sw =>
        subst hse
        have hshape : renderSeg (VSeg.majorT a (sc :: sw)) ++ renderSegs xs =
            ('v' :: (a ++ (sc :: sw))) ++ renderSegs xs := by
          simp [renderSeg]
        have hmatch : matchMajorP (('v' :: (a ++ (sc :: sw))) ++ renderSegs xs) =
            some ('v' :: (a ++ (sc :: sw)), renderSegs xs) := by
          have := matchMajorP_run_suff (A := a) (S := sc :: sw) (r := renderSegs xs)
            ha hsuf (by simp) hbd'
          simpa [List.append_assoc] using this
        rw [hshape, substGlob_match (fun hx => matchMajorP_split hx) hmatch, ihx]
        simp [renderSeg, canon3]

/-! ### Preservation of well-formedness under canonicalisation -/

theorem boundaryOkB_weaken {s : List Char} {nx : Option Char}
    (h : boundaryOkB s nx = true) : boundaryOkB [] nx = true := by
  cases nx with
  | none => rfl
  | some c =>
    cases s with
    | nil => exact h
    | cons x w =>
      simp [boundaryOkB] at h ⊢
      refine ⟨h.1, ?_, ?_⟩
      · intro hc
        subst hc
        exact absurd h.2 (by decide)
      · intro hc
        subst hc
        exact absurd h.2 (by decide)

theorem canon1_head (X Y Z : List Char) (x : VSeg) :
    (renderSeg (canon1 X Y Z x)).head? = (renderSeg x).head? := by
  cases x <;> simp [canon1, renderSeg]

theorem canon2_head (X Y : List Char) (x : VSeg) :
    (renderSeg (canon2 X Y x)).head? = (renderSeg x).head? := by
  cases x <;> simp [canon2, renderSeg]

theorem canon3_head (X : List Char) (x : VSeg) :
    (renderSeg (canon3 X x)).head? = (renderSeg x).head? := by
  cases x <;> simp [canon3, renderSeg]

theorem renderSegs_map_head {f : VSeg → VSeg}
    (hf : ∀ x, (renderSeg (f x)).head? = (renderSeg x).head?) :
    ∀ xs, (renderSegs (xs.map f)).head? = (renderSegs xs).head? := by
  intro xs
  induction xs with
  | nil => rfl
  | cons x xs ih =>
    rw [List.map_cons, renderSegs_cons, renderSegs_cons,
      List.head?_append, List.head?_append, hf, ih]

theorem segOkB_canon1 {X Y Z : List Char} (hX : digitRunB X = true)
    (hY : digitRunB Y = true) (hZ : digitRunB Z = true) {x : VSeg}
    (h : segOkB x = true) : segOkB (canon1 X Y Z x) = true := by
  cases x with
  | fullT p a b c s =>
    simp only [segOkB, Bool.and_eq_true] at h
    simp [canon1, segOkB, h.1.1.1.1, hX, hY, hZ, suffixOkB]
  | ctx s => exact h
  | minorT p a b s => exact h
  | majorT a s => exact h

theorem segOkB_canon2 {X Y : List Char} (hX : digitRunB X = true)
    (hY : digitRunB Y = true) {x : VSeg}
    (h : segOkB x = true) : segOkB (canon2 X Y x) = true := by
  cases x with
  | minorT p a b s =>
    simp only [segOkB, Bool.and_eq_true] at h
    simp [canon2, segOkB, h.1.1.1, hX, hY, suffixOkB]
  | ctx s => exact h
  | fullT p a b c s => exact h
  | majorT a s => exact h

theorem segOkB_canon3 {X : List Char} (hX : digitRunB X = true) {x : VSeg}
    (h : segOkB x = true) : segOkB (canon3 X x) = true := by
  cases x with
  | majorT a s => simp [canon3, segOkB, hX, suffixOkB]
  | ctx s => exact h
  | fullT p a b c s => exact h
  | minorT p a b s => exact h

theorem segBoundary_canon1 {X Y Z : List Char} {x : VSeg} {nx : Option Char}
    (h : segBoundary x nx = true) : segBoundary (canon1 X Y Z x) nx = true := by
  cases x with
  | fullT p a b c s => exact boundaryOkB_weaken h
  | ctx s => rfl
  | minorT p a b s => exact h
  | majorT a s => exact h

theorem segBoundary_canon2 {X Y : List Char} {x : VSeg} {nx : Option Char}
    (h : segBoundary x nx = true) : segBoundary (canon2 X Y x) nx = true := by
  cases x with
  | minorT p a b s => exact boundaryOkB_weaken h
  | ctx s => rfl
  | fullT p a b c s => exact h
  | majorT a s => exact h

theorem segBoundary_canon3 {X : List Char} {x : VSeg} {nx : Option Char}
    (h : segBoundary x nx = true) : segBoundary (canon3 X x) nx = true := by
  cases x with
  | majorT a s => exact boundaryOkB_weaken h
  | ctx s => rfl
  | fullT p a b c s => exact h
  | minorT p a b s => exact h

theorem wf_map_canon1 {X Y Z : List Char} (hX : digitRunB X = true)
    (hY : digitRunB Y = true) (hZ : digitRunB Z = true) :
    ∀ xs, wfSegsB xs = true → wfSegsB (xs.map (canon1 X Y Z)) = true := by
  intro xs
  induction xs with
  | nil => intro h; exact h
  | cons x xs ih =>
    intro h
    obtain ⟨hok, hbd, hwf⟩ := wfSegsB_cons h
    rw [List.map_cons]
    simp only [wfSegsB, Bool.and_eq_true]
    refine ⟨⟨segOkB_canon1 hX hY hZ hok, ?_⟩, ih hwf⟩
    rw [renderSegs_map_head (canon1_head X Y Z)]
    exact segBoundary_canon1 hbd

theorem wf_map_canon2 {X Y : List Char} (hX : digitRunB X = true)
    (hY : digitRunB Y = true) :
    ∀ xs, wfSegsB xs = true → wfSegsB (xs.map (canon2 X Y)) = true := by
  intro xs
  induction xs with
  | nil => intro h; exact h
  | cons x xs ih =>
    intro h
    obtain ⟨hok, hbd, hwf⟩ := wfSegsB_cons h
    rw [List.map_cons]
    simp only [wfSegsB, Bool.and_eq_true]
    refine ⟨⟨segOkB_canon2 hX hY hok, ?_⟩, ih hwf⟩
    rw [renderSegs_map_head (canon2_head X Y)]
    exact segBoundary_canon2 hbd

theorem wf_map_canon3 {X : List Char} (hX : digitRunB X = true) :
    ∀ xs, wfSegsB xs = true → wfSegsB (xs.map (canon3 X)) = true := by
  intro xs
  induction xs with
  | nil => intro h; exact h
  | cons x xs ih =>
    intro h
    obtain ⟨hok, hbd, hwf⟩ := wfSegsB_cons h
    rw [List.map_cons]
    simp only [wfSegsB, Bool.and_eq_true]
    refine ⟨⟨segOkB_canon3 hX hok, ?_⟩, ih hwf⟩
    rw [renderSegs_map_head (canon3_head X)]
    exact segBoundary_canon3 hbd

theorem fullsCanon_map_canon1 (X Y Z : List Char) (xs : List VSeg) :
    fullsCanon X Y Z (xs.map (canon1 X Y Z)) := by
  intro p a b c s hm
  rw [List.mem_map] at hm
  obtain ⟨y, _, hy⟩ := hm
  cases y with
  | fullT q a' b' c' s' =>
    simp [canon1] at hy
    exact ⟨hy.2.1.symm, hy.2.2.1.symm, hy.2.2.2.1.symm, hy.2.2.2.2⟩
  | ctx s' => simp [canon1] at hy
  | minorT q a' b' s' => simp [canon1] at hy
  | majorT a' s' => simp [canon1] at hy

theorem fullsCanon_map_canon2 {X Y Z : List Char} (W V : List Char) {xs : List VSeg}
    (h : fullsCanon X Y Z xs) : fullsCanon X Y Z (xs.map (canon2 W V)) := by
  intro p a b c s hm
  rw [List.mem_map] at hm
  obtain ⟨y, hy1, hy⟩ := hm
  cases y with
  | fullT q a' b' c' s' =>
    simp [canon2] at hy
    obtain ⟨e1, e2, e3, e4, e5⟩ := hy
    obtain ⟨f1, f2, f3, f4⟩ := h q a' b' c' s' hy1
    exact ⟨e2 ▸ f1, e3 ▸ f2, e4 ▸ f3, e5 ▸ f4⟩
  | ctx s' => simp [canon2] at hy
  | minorT q a' b' s' => simp [canon2] at hy
  | majorT a' s' => simp [canon2] at hy

theorem minorsCanon_map_canon2 (X Y : List Char) (xs : List VSeg) :
    minorsCanon X Y (xs.map (canon2 X Y)) := by
  intro p a b s hm
  rw [List.mem_map] at hm
  obtain ⟨y, _, hy⟩ := hm
  cases y with
  | minorT q a' b' s' =>
    simp [canon2] at hy
    exact ⟨hy.2.1.symm, hy.2.2.1.symm, hy.2.2.2⟩
  | ctx s' => simp [canon2] at hy
  | fullT q a' b' c' s' => simp [canon2] at hy
  | majorT a' s' => simp [canon2] at hy

theorem canon_decomp (X Y Z : List Char) (x : VSeg) :
    canon3 X (canon2 X Y (canon1 X Y Z x)) = canonSeg X Y Z x := by
  cases x <;> rfl

theorem canonSeg_idem (X Y Z : List Char) (x : VSeg) :
    canonSeg X Y Z (canonSeg X Y Z x) = canonSeg X Y Z x := by
  cases x <;> rfl

/-! ### Derivation of `x_y` and `x` via `cut` -/

theorem splitOnDot_cons (c : Char) (tl : List Char) :
    splitOnDot (c :: tl) =
      (if c == '.' then [] :: splitOnDot tl
       else
        match splitOnDot tl with
        | [] => [[c]]
        | f :: rest => (c :: f) :: rest) := rfl

theorem splitOnDot_append {A r : List Char} (hA : ∀ c ∈ A, (c == '.') = false) :
    splitOnDot (A ++ '.' :: r) = A :: splitOnDot r := by
  induction A with
  | nil =>
    rw [List.nil_append, splitOnDot_cons]
    simp
  | cons c A ih =>
    rw [List.cons_append, splitOnDot_cons, if_neg (by simp [hA c (by simp)])]
    rw [ih fun x hx => hA x (by simp [hx])]

theorem splitOnDot_no_dot {A : List Char} (hA : ∀ c ∈ A, (c == '.') = false) :
    splitOnDot A = [A] := by
  induction A with
  | nil => rfl
  | cons c A ih =>
    rw [splitOnDot_cons, if_neg (by simp [hA c (by simp)])]
    rw [ih fun x hx => hA x (by simp [hx])]

theorem digitRun_no_dot {A : List Char} (hA : digitRunB A = true) :
    ∀ c ∈ A, (c == '.') = false := by
  intro c hc
  have := digitRunB_all hA c hc
  by_cases hcd : c = '.'
  · subst hcd
    exact absurd this (by decide)
  · simp [hcd]

theorem cutF12_xyz {X Y Z : List Char} (hX : digitRunB X = true)
    (hY : digitRunB Y = true) (hZ : digitRunB Z = true) :
    cutF12 (X ++ '.' :: (Y ++ '.' :: Z)) = X ++ '.' :: Y := by
  unfold cutF12
  rw [splitOnDot_append (digitRun_no_dot hX),
    splitOnDot_append (digitRun_no_dot hY),
    splitOnDot_no_dot (digitRun_no_dot hZ)]
  rfl

theorem cutF1_xyz {X Y Z : List Char} (hX : digitRunB X = true) :
    cutF1 (X ++ '.' :: (Y ++ '.' :: Z)) = X := by
  unfold cutF1
  rw [splitOnDot_append (digitRun_no_dot hX)]
  rfl

/-! ### The full three-pass characterisation on well-separated lines -/

theorem substSemver_on_segs {X Y Z : List Char} (hX : digitRunB X = true)
    (hY : digitRunB Y = true) (hZ : digitRunB Z = true) :
    ∀ segs, wfSegsB segs = true →
      substSemverLine (X ++ '.' :: (Y ++ '.' :: Z)) (renderSegs segs) =
        renderSegs (segs.map (canonSeg X Y Z)) := by
  intro segs hwf
  have hdef : ∀ l, substSemverLine (X ++ '.' :: (Y ++ '.' :: Z)) l =
      substGlob matchMajorP (fun _ => 'v' :: cutF1 (X ++ '.' :: (Y ++ '.' :: Z)))
        (substGlob matchMinorP (repKeepHead (cutF12 (X ++ '.' :: (Y ++ '.' :: Z))))
          (substGlob matchFullP (repKeepHead (X ++ '.' :: (Y ++ '.' :: Z))) l)) :=
    fun l => rfl
  rw [hdef, cutF12_xyz hX hY hZ, cutF1_xyz hX]
  rw [pass1_segs X Y Z segs hwf]
  rw [pass2_segs X Y Z _ (wf_map_canon1 hX hY hZ segs hwf) (fullsCanon_map_canon1 X Y Z segs)]
  rw [pass3_segs X Y Z _
    (wf_map_canon2 hX hY _ (wf_map_canon1 hX hY hZ segs hwf))
    (fullsCanon_map_canon2 X Y (fullsCanon_map_canon1 X Y Z segs))
    (minorsCanon_map_canon2 X Y _)]
  simp only [List.map_map]
  exact congrArg renderSegs (List.map_congr_left fun a _ => canon_decomp X Y Z a)

theorem wf_map_canonSeg {X Y Z : List Char} (hX : digitRunB X = true)
    (hY : digitRunB Y = true) (hZ : digitRunB Z = true) {xs : List VSeg}
    (h : wfSegsB xs = true) : wfSegsB (xs.map (canonSeg X Y Z)) = true := by
  have : xs.map (canonSeg X Y Z) =
      ((xs.map (canon1 X Y Z)).map (canon2 X Y)).map (canon3 X) := by
    simp only [List.map_map]
    exact (List.map_congr_left fun a _ => (canon_decomp X Y Z a).symm)
  rw [this]
  exact wf_map_canon3 hX _ (wf_map_canon2 hX hY _ (wf_map_canon1 hX hY hZ xs h))

/-- Line-level idempotence on well-separated lines for suffix-free
target versions. -/
theorem substSemver_idem_line {X Y Z : List Char} (hX : digitRunB X = true)
    (hY : digitRunB Y = true) (hZ : digitRunB Z = true) {segs : List VSeg}
    (hwf : wfSegsB segs = true) :
    substSemverLine (X ++ '.' :: (Y ++ '.' :: Z))
        (substSemverLine (X ++ '.' :: (Y ++ '.' :: Z)) (renderSegs segs)) =
      substSemverLine (X ++ '.' :: (Y ++ '.' :: Z)) (renderSegs segs) := by
  rw [substSemver_on_segs hX hY hZ segs hwf,
    substSemver_on_segs hX hY hZ _ (wf_map_canonSeg hX hY hZ hwf)]
  simp only [List.map_map]
  exact congrArg renderSegs (List.map_congr_left fun a _ => canonSeg_idem X Y Z a)

/-! ### Idempotence of the range automaton -/

theorem sedRangeGo_idem (b e : List Char → Bool) (f : List Char → List Char) :
    ∀ ls, (∀ l ∈ ls, b (f l) = b l) → (∀ l ∈ ls, e (f l) = e l) →
      (∀ l ∈ ls, f (f l) = f l) →
      ∀ st, sedRangeGo b e f st (sedRangeGo b e f st ls) = sedRangeGo b e f st ls := by
  intro ls
  induction ls with
  | nil => intro _ _ _ st; cases st <;> rfl
  | cons l tl ih =>
    intro hb he hf st
    have hbl := hb l (by simp)
    have hel := he l (by simp)
    have hfl := hf l (by simp)
    have hb2 : ∀ x ∈ tl, b (f x) = b x := fun x hx => hb x (by simp [hx])
    have he2 : ∀ x ∈ tl, e (f x) = e x := fun x hx => he x (by simp [hx])
    have hf2 : ∀ x ∈ tl, f (f x) = f x := fun x hx => hf x (by simp [hx])
    cases st with
    | false =>
      cases hbv : b l with
      | true =>
        simp only [sedRangeGo, hbv, if_true]
        rw [hbl.trans hbv]
        simp only [if_true]
        rw [hfl, ih hb2 he2 hf2 true]
      | false =>
        simp only [sedRangeGo, hbv, Bool.false_eq_true, if_false]
        rw [ih hb2 he2 hf2 false]
    | true =>
      simp only [sedRangeGo]
      rw [hfl, hel, ih hb2 he2 hf2 (!e l)]

/-! ### No-op lemmas for bare integers without a literal `v` prefix -/

theorem substGlob_dfree {m : List Char → Option (List Char × List Char)}
    {rep : List Char → List Char}
    (hA : ∀ c tl, (∀ d, tl.head? = some d → isDigitC d = false) → m (c :: tl) = none) :
    ∀ l, (∀ c ∈ l, isDigitC c = false) → substGlob m rep l = l := by
  intro l hl
  have h : substGlob m rep (l ++ []) = l ++ substGlob m rep [] :=
    substGlob_skip_nondigit hA l [] hl (by simp)
  simpa [substGlob_nil] using h

theorem substGlob_bare_int {m : List Char → Option (List Char × List Char)}
    {rep : List Char → List Char} {D : List Char}
    (hA : ∀ c tl, (∀ d, tl.head? = some d → isDigitC d = false) → m (c :: tl) = none)
    (hB : ∀ c tl, isDigitC c = true → m (c :: tl) = none)
    (hD : digitRunB D = true) :
    ∀ a b, (∀ c ∈ a, isDigitC c = false) → (∀ c ∈ b, isDigitC c = false) →
      (∀ c, a.getLast? = some c → m (c :: (D ++ b)) = none) →
      substGlob m rep (a ++ (D ++ b)) = a ++ (D ++ b) := by
  intro a
  induction a with
  | nil =>
    intro b _ hbb _
    rw [List.nil_append, substGlob_skip_digits hB D b (digitRunB_all hD),
      substGlob_dfree hA b hbb]
  | cons c a ih =>
    intro b haa hbb hlast
    have hnone : m (c :: (a ++ (D ++ b))) = none := by
      cases a with
      | nil => exact hlast c (by simp)
      | cons x w =>
        apply hA
        intro d hd
        simp at hd
        subst hd
        exact haa x (by simp)
    rw [List.cons_append, substGlob_cons_none hnone]
    rw [ih b (fun x hx => haa x (by simp [hx])) hbb ?_]
    intro q hq
    cases a with
    | nil => simp at hq
    | cons x w => exact hlast q (by rw [List.getLast?_cons_cons]; exact hq)

/-- A bare integer in a digit-free context whose preceding character is
not a literal `v` survives all three substitution passes unchanged. -/
theorem substSemverLine_bare_int_noop (x_y_z : List Char) {a D b : List Char}
    (hD : digitRunB D = true) (ha : ∀ c ∈ a, isDigitC c = false)
    (hb : ∀ c ∈ b, isDigitC c = false) (hv : a.getLast? ≠ some 'v') :
    substSemverLine x_y_z (a ++ (D ++ b)) = a ++ (D ++ b) := by
  have h1 : substGlob matchFullP (repKeepHead x_y_z) (a ++ (D ++ b)) = a ++ (D ++ b) :=
    substGlob_bare_int (fun c tl h => matchFullP_none_hd h)
      (fun c tl h => matchFullP_none_digit h) hD a b ha hb
      (fun c _ => matchFullP_none_run1_dfree hD hb)
  have h2 : substGlob matchMinorP (repKeepHead (cutF12 x_y_z)) (a ++ (D ++ b)) =
      a ++ (D ++ b) :=
    substGlob_bare_int (fun c tl h => matchMinorP_none_hd h)
      (fun c tl h => matchMinorP_none_digit h) hD a b ha hb
      (fun c _ => matchMinorP_none_run1_dfree hD hb)
  have h3 : substGlob matchMajorP (fun _ => 'v' :: cutF1 x_y_z) (a ++ (D ++ b)) =
      a ++ (D ++ b) :=
    substGlob_bare_int (fun c tl h => matchMajorP_none_hd h)
      (fun c tl h => matchMajorP_none_not_v (not_v_of_digit h)) hD a b ha hb
      (fun c hc => matchMajorP_none_not_v (by
        have hcv : c ≠ 'v' := fun hcc => hv (hcc ▸ hc)
        simp [hcv]))
  have hdef : substSemverLine x_y_z (a ++ (D ++ b)) =
      substGlob matchMajorP (fun _ => 'v' :: cutF1 x_y_z)
        (substGlob matchMinorP (repKeepHead (cutF12 x_y_z))
          (substGlob matchFullP (repKeepHead x_y_z) (a ++ (D ++ b)))) := rfl
  rw [hdef, h1, h2, h3]

/-! ### Claim theorems (second group) -/

/-- C2: the region replacer preserves the number of lines, leaves every
line outside the begin/end range byte-for-byte unchanged, rewrites each
in-range line by the three-pass line substitution, and that substitution
relates a line to its output by replacing complete version-token spans
only — every non-token byte inside the region is copied unchanged. -/
theorem region_replacer_frame_property (x_y_z tag : List Char)
    (file : List (List Char)) (i : Nat) (fl : Bool)
    (h : (regionFlags tag file)[i]? = some fl) :
    (replace_in_regions_for_file (substSemverLine x_y_z) tag file).length = file.length ∧
    (fl = false →
      (replace_in_regions_for_file (substSemverLine x_y_z) tag file)[i]? = file[i]?) ∧
    (fl = true →
      (replace_in_regions_for_file (substSemverLine x_y_z) tag file)[i]? =
        file[i]?.map (substSemverLine x_y_z)) ∧
    (∀ l, SemverChain x_y_z l (substSemverLine x_y_z l)) := by
  refine ⟨sedRangeGo_length _ _ _ _ _, ?_, ?_, ?_⟩
  · intro hfl
    subst hfl
    exact sedRangeGo_get_false _ _ _ file false i h
  · intro hfl
    subst hfl
    exact sedRangeGo_get_true _ _ _ file false i h
  · intro l
    exact ⟨substGlob matchFullP (repKeepHead x_y_z) l,
      substGlob matchMinorP (repKeepHead (cutF12 x_y_z))
        (substGlob matchFullP (repKeepHead x_y_z) l),
      substGlob_spans (fun hx => matchFullP_split hx) l,
      substGlob_spans (fun hx => matchMinorP_split hx) _,
      substGlob_spans (fun hx => matchMajorP_split hx) _⟩

/-- C2 witness: on a concrete four-line file, the line before the begin
marker is flagged `false` and survives unchanged, by the frame
theorem. -/
theorem region_replacer_frame_property_witness :
    (regionFlags (str "dev")
      [str "no markers", str "# region replace dev", str "v1.2.3",
       str "# endregion replace dev"])[0]? = some false ∧
    (replace_in_regions_for_file (substSemverLine (str "4.5.6")) (str "dev")
      [str "no markers", str "# region replace dev", str "v1.2.3",
       str "# endregion replace dev"])[0]? =
      [str "no markers", str "# region replace dev", str "v1.2.3",
       str "# endregion replace dev"][0]? :=
  ⟨by decide,
   (region_replacer_frame_property (str "4.5.6") (str "dev")
     [str "no markers", str "# region replace dev", str "v1.2.3",
      str "# endregion replace dev"] 0 false (by decide)).2.1 rfl⟩

/-- C3 counterexample: the replacement is NOT idempotent for every valid
target version.  With the valid version `7.8.9-rc`, the region line
`v1.2.3x` becomes `v7.8.9-rcx` after one application (the suffix-less
token absorbs the following `x` into nothing, and the new suffix then
abuts it), and `v7.8.9-rc` after two — the second run swallows the
`x`. -/
theorem semver_region_replace_not_idempotent :
    validSemver (str "7.8.9-rc") = true ∧
    replace_in_regions_for_file (substSemverLine (str "7.8.9-rc")) (str "dev")
        [str "# region replace dev", str "v1.2.3x", str "# endregion replace dev"] =
      [str "# region replace dev", str "v7.8.9-rcx", str "# endregion replace dev"] ∧
    replace_in_regions_for_file (substSemverLine (str "7.8.9-rc")) (str "dev")
        (replace_in_regions_for_file (substSemverLine (str "7.8.9-rc")) (str "dev")
          [str "# region replace dev", str "v1.2.3x", str "# endregion replace dev"]) ≠
      replace_in_regions_for_file (substSemverLine (str "7.8.9-rc")) (str "dev")
        [str "# region replace dev", str "v1.2.3x", str "# endregion replace dev"] := by
  refine ⟨by decide, by decide, by decide⟩

/-- C3 amended: the region replacement IS idempotent whenever (a) the
target version is a plain suffix-free `X.Y.Z`, (b) every line of the
file is a well-separated sequence of version-free context and version
tokens, and (c) the substitution does not change any line's
begin/end-marker status. -/
theorem region_replace_idempotent_for_plain_versions (X Y Z : List Char)
    (hX : digitRunB X = true) (hY : digitRunB Y = true) (hZ : digitRunB Z = true)
    (tag : List Char) (file : List (List Char))
    (hsegs : ∀ l ∈ file, ∃ segs, wfSegsB segs = true ∧ l = renderSegs segs)
    (hb : ∀ l ∈ file,
      matchesBeginM (str "replace " ++ tag)
          (substSemverLine (X ++ '.' :: (Y ++ '.' :: Z)) l) =
        matchesBeginM (str "replace " ++ tag) l)
    (he : ∀ l ∈ file,
      matchesEndM (str "replace " ++ tag)
          (substSemverLine (X ++ '.' :: (Y ++ '.' :: Z)) l) =
        matchesEndM (str "replace " ++ tag) l) :
    replace_in_regions_for_file (substSemverLine (X ++ '.' :: (Y ++ '.' :: Z))) tag
        (replace_in_regions_for_file (substSemverLine (X ++ '.' :: (Y ++ '.' :: Z))) tag file) =
      replace_in_regions_for_file (substSemverLine (X ++ '.' :: (Y ++ '.' :: Z))) tag file := by
  unfold replace_in_regions_for_file
  refine sedRangeGo_idem _ _ _ file hb he ?_ false
  intro l hl
  obtain ⟨segs, hwf, rfl⟩ := hsegs l hl
  exact substSemver_idem_line hX hY hZ hwf

/-- C3 amended, witness: a concrete region file with the plain version
`4.5.6` is a fixed point of the second application. -/
theorem region_replace_idem_witness :
    replace_in_regions_for_file
        (substSemverLine (str "4" ++ '.' :: (str "5" ++ '.' :: str "6"))) (str "dev")
        (replace_in_regions_for_file
          (substSemverLine (str "4" ++ '.' :: (str "5" ++ '.' :: str "6"))) (str "dev")
          [str "# region replace dev", str "say v1.2.3 ok", str "# endregion replace dev"]) =
      replace_in_regions_for_file
        (substSemverLine (str "4" ++ '.' :: (str "5" ++ '.' :: str "6"))) (str "dev")
        [str "# region replace dev", str "say v1.2.3 ok", str "# endregion replace dev"] := by
  refine region_replace_idempotent_for_plain_versions (str "4") (str "5") (str "6")
    (by decide) (by decide) (by decide) (str "dev")
    [str "# region replace dev", str "say v1.2.3 ok", str "# endregion replace dev"]
    ?_ ?_ ?_
  · intro l hl
    simp only [List.mem_cons, List.not_mem_nil, or_false] at hl
    rcases hl with rfl | rfl | rfl
    · exact ⟨[VSeg.ctx (str "# region replace dev")], by decide, by decide⟩
    · exact ⟨[VSeg.ctx (str "say "), VSeg.fullT 'v' (str "1") (str "2") (str "3") [],
        VSeg.ctx (str " ok")], by decide, by decide⟩
    · exact ⟨[VSeg.ctx (str "# endregion replace dev")], by decide, by decide⟩
  · intro l hl
    simp only [List.mem_cons, List.not_mem_nil, or_false] at hl
    rcases hl with rfl | rfl | rfl
    · decide
    · decide
    · decide
  · intro l hl
    simp only [List.mem_cons, List.not_mem_nil, or_false] at hl
    rcases hl with rfl | rfl | rfl
    · decide
    · decide
    · decide

/-- C6 counterexample: set-version.sh's inline replacer prefixes its
bare-integer rule with `(v|\W)`, not with a literal `v`, so a bare
integer preceded by a space IS rewritten: `say 7 ok` becomes
`say 4 ok` for new version `4.5.6`. -/
theorem sv_bare_integer_replaced_without_v :
    substSemverLineSV (str "4.5.6") (str "say 7 ok") = str "say 4 ok" ∧
    substSemverLineSV (str "4.5.6") (str "say 7 ok") ≠ str "say 7 ok" ∧
    sv_replace (str "4.5.6") (str "dev")
        [str "# region replace-version dev", str "say 7 ok",
         str "# endregion replace-version dev"] =
      [str "# region replace-version dev", str "say 4 ok",
       str "# endregion replace-version dev"] := by
  refine ⟨by decide, by decide, by decide⟩

/-- C6 amended: the library replacer (part_013) rewrites a bare integer
exactly when it is directly preceded by a literal `v`: in a digit-free
context, an unprefixed integer run survives all three passes unchanged,
a `v`-prefixed one is rewritten to `v` plus the new major version, and
`v`-plus-integer is never matched by the full or minor rules; but
set-version.sh's inline variant accepts any non-word prefix. -/
theorem bare_major_needs_literal_v (X Y Z : List Char)
    (hX : digitRunB X = true) (hY : digitRunB Y = true) (hZ : digitRunB Z = true)
    (a D b : List Char) (hD : digitRunB D = true)
    (ha : ∀ c ∈ a, isDigitC c = false) (hb : ∀ c ∈ b, isDigitC c = false) :
    (a.getLast? ≠ some 'v' →
      substSemverLine (X ++ '.' :: (Y ++ '.' :: Z)) (a ++ (D ++ b)) = a ++ (D ++ b)) ∧
    (matchFullP ('v' :: (D ++ b)) = none ∧ matchMinorP ('v' :: (D ++ b)) = none) ∧
    (boundaryOkB [] b.head? = true →
      substSemverLine (X ++ '.' :: (Y ++ '.' :: Z)) (a ++ 'v' :: (D ++ b)) =
        a ++ 'v' :: (X ++ b)) := by
  refine ⟨?_, ⟨matchFullP_none_run1_dfree hD hb, matchMinorP_none_run1_dfree hD hb⟩, ?_⟩
  · intro hv
    exact substSemverLine_bare_int_noop _ hD ha hb hv
  · intro hbd
    have hwf : wfSegsB [VSeg.ctx a, VSeg.majorT D [], VSeg.ctx b] = true := by
      have h1 : segOkB (VSeg.ctx a) = true := by
        simp only [segOkB, List.all_eq_true]
        intro c hc
        simp [ha c hc]
      have h2 : segOkB (VSeg.majorT D []) = true := by
        simp [segOkB, hD, suffixOkB]
      have h3 : segOkB (VSeg.ctx b) = true := by
        simp only [segOkB, List.all_eq_true]
        intro c hc
        simp [hb c hc]
      have h5 : (renderSegs [VSeg.ctx b]).head? = b.head? := by
        simp [renderSegs, renderSeg]
      simp [wfSegsB, segBoundary, h1, h2, h3, h5, hbd]
    have h := substSemver_on_segs hX hY hZ [VSeg.ctx a, VSeg.majorT D [], VSeg.ctx b] hwf
    have hr1 : renderSegs [VSeg.ctx a, VSeg.majorT D [], VSeg.ctx b] =
        a ++ 'v' :: (D ++ b) := by
      simp [renderSegs, renderSeg]
    have hr2 : renderSegs ([VSeg.ctx a, VSeg.majorT D [], VSeg.ctx b].map
        (canonSeg X Y Z)) = a ++ 'v' :: (X ++ b) := by
      simp [canonSeg, renderSegs, renderSeg]
    rw [hr1, hr2] at h
    exact h

/-- C6 amended, witness: `say 7 ok` is untouched by the library
replacer, while `say v7 ok` becomes `say v4 ok`. -/
theorem bare_major_needs_literal_v_witness :
    substSemverLine (str "4" ++ '.' :: (str "5" ++ '.' :: str "6"))
        (str "say " ++ (str "7" ++ str " ok")) = str "say " ++ (str "7" ++ str " ok") ∧
    substSemverLine (str "4" ++ '.' :: (str "5" ++ '.' :: str "6"))
        (str "say " ++ 'v' :: (str "7" ++ str " ok")) =
      str "say " ++ 'v' :: (str "4" ++ str " ok") :=
  ⟨(bare_major_needs_literal_v (str "4") (str "5") (str "6")
      (by decide) (by decide) (by decide) (str "say ") (str "7") (str " ok")
      (by decide) (by decide) (by decide)).1 (by decide),
   (bare_major_needs_literal_v (str "4") (str "5") (str "6")
      (by decide) (by decide) (by decide) (str "say ") (str "7") (str " ok")
      (by decide) (by decide) (by decide)).2.2 (by decide)⟩

/-- C7 counterexample: completeness of full-version substitution fails
in two ways.  (1) A full version token at the very start of a line is
NOT rewritten to the new full version — the pattern requires a
preceding `v` or non-word character, so for the line `1.2.3` only the
minor rule fires (on `.2.3`), producing `1.4.5` instead of `4.5.6`
(library replacer).  (2) set-version.sh's inline `replace` has no `g`
flag on its `s` commands, so a second full token on the same line is
left unchanged: `say v1.2.3 and v7.7.7 ok` becomes
`say v4.5.6 and v7.7.7 ok`, not `say v4.5.6 and v4.5.6 ok`. -/
theorem line_initial_token_not_fully_replaced :
    replace_in_regions_for_file (substSemverLine (str "4.5.6")) (str "dev")
        [str "# region replace dev", str "1.2.3", str "# endregion replace dev"] =
      [str "# region replace dev", str "1.4.5", str "# endregion replace dev"] ∧
    replace_in_regions_for_file (substSemverLine (str "4.5.6")) (str "dev")
        [str "# region replace dev", str "1.2.3", str "# endregion replace dev"] ≠
      [str "# region replace dev", str "4.5.6", str "# endregion replace dev"] ∧
    substSemverLineSV (str "4.5.6") (str "say v1.2.3 and v7.7.7 ok") =
      str "say v4.5.6 and v7.7.7 ok" ∧
    substSemverLineSV (str "4.5.6") (str "say v1.2.3 and v7.7.7 ok") ≠
      str "say v4.5.6 and v4.5.6 ok" := by
  refine ⟨by decide, by decide, by decide, by decide⟩

/-- C7 amended: for the library replacer (part_013), whose `s` commands
carry the `/g` flag, on a well-separated line (every version token
preceded by its required one-character prefix — `v` or a non-word
character — and followed by a character that cannot extend it) every
full version token is rewritten to the canonical new version —
including a second or later occurrence on the same line; every full
token of the input appears canonicalised in the output.  This does NOT
extend to set-version.sh's inline variant, whose `s` commands lack the
`g` flag and rewrite only the first match per line. -/
theorem all_prefixed_full_tokens_replaced (X Y Z : List Char)
    (hX : digitRunB X = true) (hY : digitRunB Y = true) (hZ : digitRunB Z = true)
    (segs : List VSeg) (hwf : wfSegsB segs = true) :
    substSemverLine (X ++ '.' :: (Y ++ '.' :: Z)) (renderSegs segs) =
      renderSegs (segs.map (canonSeg X Y Z)) ∧
    ∀ p a b c s, VSeg.fullT p a b c s ∈ segs →
      VSeg.fullT p X Y Z [] ∈ segs.map (canonSeg X Y Z) := by
  refine ⟨substSemver_on_segs hX hY hZ segs hwf, ?_⟩
  intro p a b c s hm
  rw [List.mem_map]
  exact ⟨VSeg.fullT p a b c s, hm, rfl⟩

/-- C7 amended, witness: a line carrying two full version tokens
(`v1.2.3` and ` 9.9.9-rc`) has both rewritten to the new version. -/
theorem all_prefixed_full_tokens_replaced_witness :
    substSemverLine (str "4" ++ '.' :: (str "5" ++ '.' :: str "6"))
        (renderSegs [VSeg.ctx (str "say "),
          VSeg.fullT 'v' (str "1") (str "2") (str "3") [],
          VSeg.ctx (str " and"),
          VSeg.fullT ' ' (str "9") (str "9") (str "9") (str "-rc"),
          VSeg.ctx (str " end")]) =
      renderSegs ([VSeg.ctx (str "say "),
          VSeg.fullT 'v' (str "1") (str "2") (str "3") [],
          VSeg.ctx (str " and"),
          VSeg.fullT ' ' (str "9") (str "9") (str "9") (str "-rc"),
          VSeg.ctx (str " end")].map (canonSeg (str "4") (str "5") (str "6"))) ∧
    VSeg.fullT ' ' (str "4") (str "5") (str "6") [] ∈
      [VSeg.ctx (str "say "),
       VSeg.fullT 'v' (str "1") (str "2") (str "3") [],
       VSeg.ctx (str " and"),
       VSeg.fullT ' ' (str "9") (str "9") (str "9") (str "-rc"),
       VSeg.ctx (str " end")].map (canonSeg (str "4") (str "5") (str "6")) :=
  ⟨(all_prefixed_full_tokens_replaced (str "4") (str "5") (str "6")
      (by decide) (by decide) (by decide) _ (by decide)).1,
   (all_prefixed_full_tokens_replaced (str "4") (str "5") (str "6")
      (by decide) (by decide) (by decide) _ (by decide)).2
     ' ' (str "9") (str "9") (str "9") (str "-rc") (by decide)⟩

end Marker
